import Mathlib

/-!
Verification of the schema dependency-graph analysis pipeline:
a shallow embedding of the cycle resolver (`analysis.rs`), the
unification analyzer (`analysis/unify.rs`) and the name resolver
(`name.rs`), with theorems about the properties the design document
states for them.
-/

namespace Codegen

/-- Model of `type_system::url::VersionedUrl`: a base URL (origin plus
path segments) and an integer version.  The base URL is kept in parsed
form (origin and path segments); `base_url.to_url()` exposes exactly
these two components to the name resolver. -/
structure BaseUrl where
  origin : String
  path : List String
deriving DecidableEq, Repr

structure VersionedUrl where
  base : BaseUrl
  version : Nat
deriving DecidableEq, Repr

/-- `NodeKind` from `analysis.rs`. -/
inductive NodeKind where
  | dataType
  | propertyType
  | entityType
deriving DecidableEq, Repr

/-- `EdgeKind` from `analysis.rs`. -/
inductive EdgeKind where
  | plain
  | boxed
  | array
deriving DecidableEq, Repr

/-- `Node` from `analysis.rs` (id plus kind). -/
structure Node where
  id : VersionedUrl
  kind : NodeKind
deriving DecidableEq, Repr

/-- `Graph = DiGraph<Node, Edge>` from `analysis.rs`, in adjacency-list
form: `nodes` indexed by `NodeIndex`, `edges` indexed by `EdgeIndex`
(position in the list), each edge being (source, target, weight). -/
structure Graph where
  nodes : List Node
  edges : List (Nat × Nat × EdgeKind)
deriving DecidableEq, Repr

/-- `CycleState` from `analysis.rs`. -/
inductive CycleState where
  | unvisited
  | onStack
  | processed
deriving DecidableEq, Repr

/-- The `Plain`-only projection produced by `graph.filter_map` in
`remove_cycles`: every node kept, and each `Plain` edge kept with its
original `EdgeIndex` as weight.  An entry is (source, target, original
edge index); its position in the list is its edge index in the
projection. -/
abbrev PEdges := List (Nat × Nat × Nat)

def plainProj (es : List (Nat × Nat × EdgeKind)) : PEdges :=
  es.enum.filterMap fun x =>
    if x.2.2.2 == EdgeKind.plain then some (x.2.1, x.2.2.1, x.1) else none

/-- `graph.edges_directed(v, Outgoing)` of petgraph: the outgoing edges
of `v` as (edge index, target) pairs, most recently inserted first. -/
def outEdges (p : PEdges) (v : Nat) : List (Nat × Nat) :=
  ((p.enum.filter fun x => x.2.1 == v).map fun x => (x.1, x.2.2.1)).reverse

/-- `graph.neighbors_directed(v, Outgoing)` of petgraph. -/
def neighborsDirected (p : PEdges) (v : Nat) : List Nat :=
  (outEdges p v).map (·.2)

/-- The self-loop check at the top of the `process_dfs_tree` loop:
`edges_directed(last, Outgoing).find(|edge| edge.target() == last)`. -/
def firstSelfLoop (p : PEdges) (v : Nat) : Option Nat :=
  ((outEdges p v).find? fun e => e.2 == v).map (·.1)

/-- `graph.find_edge(a, b)` of petgraph: follows the adjacency list of
`a` (most recent first) and returns the first edge to `b`, i.e. the
edge of largest index. -/
def findEdge (p : PEdges) (a b : Nat) : Option Nat :=
  ((p.enum.filter fun x => x.2.1 == a && x.2.2.1 == b).map (·.1)).getLast?

/-- The pointer walk of `record_cycle`: starting from the top of the
stack, collect entries until `node` is reached (inclusive).  The head
of `stack` is the top. -/
def pathTo : List Nat → Nat → List Nat
  | [], _ => []
  | s :: rest, node => if s = node then [s] else s :: pathTo rest node

/-- `record_cycle` from `analysis.rs`: the recorded edge list for the
stack suffix down to `node`. -/
def recordCycle (p : PEdges) (stack : List Nat) (node : Nat) : List Nat :=
  let path := pathTo stack node
  let path := if path.length == 1 then path ++ path else path
  (path.zip path.tail).filterMap fun ab => findEdge p ab.1 ab.2

/-- The mutable state of `process_dfs_tree`: the DFS stack (head = top),
the per-node tri-state, and the recorded cycles. -/
structure DfsState where
  stack : List Nat
  visited : Nat → CycleState
  cycles : List (List Nat)

/-- Pointwise update of the `visited` vector. -/
def upd (f : Nat → CycleState) (i : Nat) (c : CycleState) : Nat → CycleState :=
  fun j => if j = i then c else f j

/-- The `for node in graph.neighbors_directed(last, Outgoing)` loop of
`process_dfs_tree`: record a cycle for OnStack neighbours, push
Unvisited ones. -/
def visitNeighbors (p : PEdges) (last : Nat) : List Nat → DfsState → DfsState
  | [], s => s
  | w :: ws, s =>
    if w = last then visitNeighbors p last ws s
    else
      match s.visited w with
      | CycleState.onStack =>
          visitNeighbors p last ws
            { s with cycles := s.cycles ++ [recordCycle p s.stack w] }
      | CycleState.unvisited =>
          visitNeighbors p last ws
            { stack := w :: s.stack, visited := upd s.visited w CycleState.onStack,
              cycles := s.cycles }
      | CycleState.processed => visitNeighbors p last ws s

/-- The `if let Some(edge) = ... find(|edge| edge.target() == last)`
self-loop record at the top of the `process_dfs_tree` loop body. -/
def selfLoopRecord (p : PEdges) (last : Nat) (cs : List (List Nat)) : List (List Nat) :=
  match firstSelfLoop p last with
  | some e => cs ++ [[e]]
  | none => cs

/-- `process_dfs_tree` from `analysis.rs`.  The Rust `while` loop has no
fuel; here one unit of fuel is one loop iteration, and `none` means the
iteration budget was exhausted, i.e. for every fuel value the function
returns `none` exactly when the Rust loop does not terminate. -/
def processDfsTree (p : PEdges) : Nat → DfsState → Option DfsState
  | 0, _ => none
  | fuel + 1, s =>
    match s.stack with
    | [] => some s
    | last :: rest =>
      if (neighborsDirected p last).all fun w =>
          w == last || s.visited w == CycleState.processed then
        processDfsTree p fuel
          { stack := rest, visited := upd s.visited last CycleState.processed,
            cycles := selfLoopRecord p last s.cycles }
      else
        processDfsTree p fuel
          (visitNeighbors p last (neighborsDirected p last)
            { stack := last :: rest, visited := s.visited,
              cycles := selfLoopRecord p last s.cycles })

/-- The outer loop of `find_cycles`: start a DFS tree at every node
still unvisited. -/
def findCyclesAux (p : PEdges) (fuel : Nat) :
    List Nat → (Nat → CycleState) → List (List Nat) →
    Option ((Nat → CycleState) × List (List Nat))
  | [], visited, cycles => some (visited, cycles)
  | v :: vs, visited, cycles =>
    if visited v == CycleState.unvisited then
      match processDfsTree p fuel
          { stack := [v], visited := upd visited v CycleState.onStack,
            cycles := cycles } with
      | none => none
      | some s => findCyclesAux p fuel vs s.visited s.cycles
    else findCyclesAux p fuel vs visited cycles

/-- `find_cycles` from `analysis.rs`. -/
def findCycles (fuel n : Nat) (p : PEdges) : Option (List (List Nat)) :=
  (findCyclesAux p fuel (List.range n) (fun _ => CycleState.unvisited) []).map (·.2)

/-- `occurrences[i]`: over all discovered cycles, how many times edge
`i` of the projection occurs. -/
def occCount (cycles : List (List Nat)) (i : Nat) : Nat :=
  (cycles.map fun c => c.count i).sum

/-- Stable insertion used to model `slice::sort_by` (a stable sort; the
comparator below is a strict total order on distinct indices, so the
sorted result is unique). -/
def insertSorted (le : Nat → Nat → Bool) (a : Nat) : List Nat → List Nat
  | [] => [a]
  | b :: bs => if le a b then a :: b :: bs else b :: insertSorted le a bs

/-- `edges.sort_by(|a, b| occurrences[a].cmp(&occurrences[b]).then(a.cmp(b)))`. -/
def sortByOcc (cycles : List (List Nat)) (es : List Nat) : List Nat :=
  es.foldr
    (insertSorted fun a b =>
      Nat.blt (occCount cycles a) (occCount cycles b) ||
        (occCount cycles a == occCount cycles b && Nat.ble a b))
    []

/-- `graph.edge_weight_mut(chosen).kind = EdgeKind::Boxed`; `none` is
the `.expect` panic for an out-of-range index. -/
def boxEdge (es : List (Nat × Nat × EdgeKind)) (i : Nat) :
    Option (List (Nat × Nat × EdgeKind)) :=
  match es[i]? with
  | some (s, t, _) => some (es.set i (s, t, EdgeKind.boxed))
  | none => none

/-- The loop body of `DependencyAnalyzer::remove_cycles`, indexed by the
remaining iteration budget (`iterations` starts at 1024; the
`assert_ne!(iterations, 0)` abort is `none`). -/
def removeCyclesAux (fuel : Nat) : Nat → Graph → Option Graph
  | 0, _ => none
  | iters + 1, g =>
    let p := plainProj g.edges
    match findCycles fuel g.nodes.length p with
    | none => none
    | some cycles =>
      if cycles.isEmpty then some g
      else
        let es := (List.range p.length).filter fun i => Nat.blt 0 (occCount cycles i)
        if es.isEmpty then some g
        else
          match (sortByOcc cycles es).head? with
          | none => none
          | some chosenP =>
            match p[chosenP]? with
            | none => none
            | some (_, _, orig) =>
              match boxEdge g.edges orig with
              | none => none
              | some es' => removeCyclesAux fuel iters { g with edges := es' }

/-- `DependencyAnalyzer::remove_cycles` from `analysis.rs`, with its
fixed budget of 1024 iterations.  `fuel` bounds the inner
`find_cycles` DFS loop, which has no bound in the source: `none` for
every `fuel` is non-termination of the source. -/
def removeCycles (fuel : Nat) (g : Graph) : Option Graph :=
  removeCyclesAux fuel 1024 g

/-- A directed edge of the projection, ignoring the weight. -/
def pEdgeMem (p : PEdges) (a b : Nat) : Prop :=
  ∃ o, (a, b, o) ∈ p

/-- A directed cycle (elementary, possibly a self-loop for `k = 1`) in
the plain projection: `k` distinct nodes, each with an edge to the
cyclically next one. -/
def ECycleP (p : PEdges) : Prop :=
  ∃ (k : Nat) (c : Nat → Nat), 0 < k ∧
    (∀ i, i < k → ∀ j, j < k → c i = c j → i = j) ∧
    (∀ i, i < k → pEdgeMem p (c i) (c ((i + 1) % k)))

/-- Well-formed graph: every edge endpoint is a valid node index. -/
def wfb (g : Graph) : Bool :=
  g.edges.all fun e => decide (e.1 < g.nodes.length) && decide (e.2.1 < g.nodes.length)

/-! ### Concrete graphs for the tests of `analysis.rs` -/
/-- A node like the one built in the tests of `analysis.rs`
(`https://example.com/v/1`, reused for every index). -/
def exNode : Node := ⟨⟨⟨"https://example.com", ["v", "1"]⟩, 1⟩, NodeKind.dataType⟩

/-- The graph of the `remove_cycles_self_loop` test: one node with one
Plain self-loop. -/
def selfLoopG : Graph := ⟨[exNode], [(0, 0, EdgeKind.plain)]⟩

/-- Expected result of resolving `selfLoopG`. -/
def selfLoopBoxedG : Graph := ⟨[exNode], [(0, 0, EdgeKind.boxed)]⟩

/-- A two-node all-Plain cycle `0 → 1 → 0`. -/
def twoCycleG : Graph :=
  ⟨[exNode, exNode], [(0, 1, EdgeKind.plain), (1, 0, EdgeKind.plain)]⟩

/-- The graph of the repo's own `remove_larger_cycle` test: a three-node
all-Plain cycle `a → b → c → a`. -/
def threeCycleG : Graph :=
  ⟨[exNode, exNode, exNode],
    [(0, 1, EdgeKind.plain), (1, 2, EdgeKind.plain), (2, 0, EdgeKind.plain)]⟩

/-! ### The schema model (`type_system` values as consumed by codegen) -/
/-- `ValueOrArray<PropertyTypeReference>` / `ValueOrArray<DataTypeReference>`. -/
inductive ValueOrArray where
  | value (url : VersionedUrl)
  | arrayOf (url : VersionedUrl)
deriving DecidableEq, Repr

/-- `PropertyValues`: a data-type reference, an object of named property
references, or an array of further property values. -/
inductive PropertyValues where
  | dataTypeReference (url : VersionedUrl)
  | propertyTypeObject (properties : List (String × ValueOrArray))
  | arrayOfPropertyValues (oneOf : List PropertyValues)

structure DataType where
  id : VersionedUrl
  title : String
deriving DecidableEq, Repr

structure PropertyType where
  id : VersionedUrl
  title : String
  oneOf : List PropertyValues

structure EntityType where
  id : VersionedUrl
  title : String
  properties : List (String × ValueOrArray)
  required : List String
  inheritsFrom : List VersionedUrl
deriving DecidableEq, Repr

/-- `AnyType` from codegen's `lib.rs`. -/
inductive AnyType where
  | data (d : DataType)
  | property (p : PropertyType)
  | entity (e : EntityType)

def AnyType.id : AnyType → VersionedUrl
  | .data d => d.id
  | .property p => p.id
  | .entity e => e.id

def AnyType.title : AnyType → String
  | .data d => d.title
  | .property p => p.title
  | .entity e => e.title

/-! ### `DependencyAnalyzer::new` (graph building) -/
/-- The `Lookup` table: versioned URL to node index (a `HashMap` in the
source, modelled as an association list; only get/insert are used). -/
abbrev Lookup := List (VersionedUrl × Nat)

def lookupGet (l : Lookup) (u : VersionedUrl) : Option Nat :=
  (l.find? fun x => decide (x.1 = u)).map (·.2)

/-- The state built up by `DependencyAnalyzer::new`: the temporary graph
(nodes that may still lack a schema) plus the lookup table. -/
structure BuildState where
  nodes : List (Option Node)
  edges : List (Nat × Nat × EdgeKind)
  lookup : Lookup
deriving Repr

/-- `graph.find_edge` on the temporary graph (most recently added edge
between the ordered pair). -/
def tempFindEdge (es : List (Nat × Nat × EdgeKind)) (a b : Nat) : Option Nat :=
  ((es.enum.filter fun x => decide (x.2.1 = a) && decide (x.2.2.1 = b)).map (·.1)).getLast?

/-- `graph.update_edge(source, target, Edge { kind })`: update the kind
of the existing edge between the pair, or append a new edge. -/
def updateEdge (es : List (Nat × Nat × EdgeKind)) (a b : Nat) (k : EdgeKind) :
    List (Nat × Nat × EdgeKind) :=
  match tempFindEdge es a b with
  | some i => es.set i (a, b, k)
  | none => es ++ [(a, b, k)]

/-- `DependencyAnalyzer::add_link`. -/
def addLink (st : BuildState) (source : Nat) (target : VersionedUrl)
    (kind : EdgeKind) : BuildState :=
  match lookupGet st.lookup target with
  | some index =>
      { st with edges := updateEdge st.edges source index kind }
  | none =>
      let index := st.nodes.length
      { nodes := st.nodes ++ [none],
        edges := updateEdge st.edges source index kind,
        lookup := st.lookup ++ [(target, index)] }

/-- `DependencyAnalyzer::outgoing_entity_type`. -/
def outgoingEntityType (st : BuildState) (index : Nat) (ty : EntityType) :
    BuildState :=
  (ty.properties.map Prod.snd).foldl
    (fun st v =>
      match v with
      | ValueOrArray.value url => addLink st index url EdgeKind.plain
      | ValueOrArray.arrayOf url => addLink st index url EdgeKind.array)
    st

mutual

/-- `DependencyAnalyzer::outgoing_property_value`. -/
def outgoingPropertyValue (st : BuildState) (index : Nat)
    (value : PropertyValues) (kind : Option EdgeKind) : BuildState :=
  let kind := kind.getD EdgeKind.plain
  match value with
  | PropertyValues.dataTypeReference url => addLink st index url kind
  | PropertyValues.propertyTypeObject properties =>
      properties.foldl
        (fun st x =>
          match x.2 with
          | ValueOrArray.value url => addLink st index url kind
          | ValueOrArray.arrayOf url => addLink st index url EdgeKind.array)
        st
  | PropertyValues.arrayOfPropertyValues oneOf =>
      outgoingPropertyValueList st index oneOf

/-- The `for value in array.items().one_of()` recursion of
`outgoing_property_value`, with `Some(EdgeKind::Array)`. -/
def outgoingPropertyValueList (st : BuildState) (index : Nat)
    (vs : List PropertyValues) : BuildState :=
  match vs with
  | [] => st
  | v :: vs =>
      outgoingPropertyValueList
        (outgoingPropertyValue st index v (some EdgeKind.array)) index vs

end

/-- `DependencyAnalyzer::outgoing_property_type`. -/
def outgoingPropertyType (st : BuildState) (index : Nat) (ty : PropertyType) :
    BuildState :=
  ty.oneOf.foldl (fun st v => outgoingPropertyValue st index v none) st

/-- `DependencyAnalyzer::outgoing`. -/
def outgoing (st : BuildState) (index : Nat) (ty : AnyType) : BuildState :=
  match ty with
  | AnyType.data _ => st
  | AnyType.property p => outgoingPropertyType st index p
  | AnyType.entity e => outgoingEntityType st index e

def nodeFor (ty : AnyType) : Node :=
  match ty with
  | AnyType.data d => ⟨d.id, NodeKind.dataType⟩
  | AnyType.property p => ⟨p.id, NodeKind.propertyType⟩
  | AnyType.entity e => ⟨e.id, NodeKind.entityType⟩

/-- The per-type step of the loop in `DependencyAnalyzer::new`. -/
def insertType (st : BuildState) (ty : AnyType) : BuildState :=
  let node := nodeFor ty
  match lookupGet st.lookup (AnyType.id ty) with
  | some index =>
      outgoing { st with nodes := st.nodes.set index (some node) } index ty
  | none =>
      let index := st.nodes.length
      outgoing
        { nodes := st.nodes ++ [some node], edges := st.edges,
          lookup := st.lookup ++ [(AnyType.id ty, index)] }
        index ty

def buildTemp (types : List AnyType) : BuildState :=
  types.foldl insertType ⟨[], [], []⟩

/-- Number of schema-bearing nodes before index `i` (the renumbering of
petgraph's `filter_map`). -/
def keptBefore (nodes : List (Option Node)) (i : Nat) : Nat :=
  ((nodes.take i).filter fun x => x.isSome).length

/-- The final `graph.filter_map` in `DependencyAnalyzer::new`: nodes
with no schema (dangling reference targets) are dropped — with only a
`tracing::warn!` diagnostic — and so is every edge incident to one. -/
def filterGraph (st : BuildState) : Graph :=
  ⟨st.nodes.filterMap id,
    st.edges.filterMap fun e =>
      match st.nodes[e.1]?, st.nodes[e.2.1]? with
      | some (some _), some (some _) =>
          some (keptBefore st.nodes e.1, keptBefore st.nodes e.2.1, e.2.2)
      | _, _ => none⟩

/-- `DependencyAnalyzer` (lookup plus resolved graph). -/
structure DependencyAnalyzer where
  lookup : Lookup
  graph : Graph
deriving DecidableEq, Repr

/-- `DependencyAnalyzer::new`: build the temporary graph, drop
schema-less nodes, then run `remove_cycles` (whose inner DFS needs a
fuel here; `none` for every fuel is divergence of the source). -/
def DependencyAnalyzer.new (fuel : Nat) (types : List AnyType) :
    Option DependencyAnalyzer :=
  let st := buildTemp types
  (removeCycles fuel (filterGraph st)).map fun g => ⟨st.lookup, g⟩

/-! ### Invariants of the graph builder -/
/-- Builder invariant: lookup indices are in range, schema-bearing nodes
carry the id of their lookup key, lookup indices identify their key, and
every schema on a node comes from `ids`. -/
def InvL (ids : List VersionedUrl) (st : BuildState) : Prop :=
  (∀ x ∈ st.lookup, x.2 < st.nodes.length) ∧
  (∀ x ∈ st.lookup, ∀ w : Node, st.nodes[x.2]? = some (some w) → w.id = x.1) ∧
  (∀ x ∈ st.lookup, ∀ y ∈ st.lookup, x.2 = y.2 → x.1 = y.1) ∧
  (∀ w : Node, some w ∈ st.nodes → w.id ∈ ids)

/-- A schema with id `u` is attached to some node. -/
def HasId (st : BuildState) (u : VersionedUrl) : Prop :=
  ∃ (i : Nat) (w : Node), st.nodes[i]? = some (some w) ∧ Node.id w = u

/-- A property closed under `add_link` is preserved by every traversal
of the builder. -/
def AddLinkClosed (P : BuildState → Prop) : Prop :=
  ∀ st src tgt k, P st → P (addLink st src tgt k)

/-! ### The dangling-reference example -/
def urlP : VersionedUrl :=
  ⟨⟨"https://example.com", ["@alice", "types", "property-type", "p"]⟩, 1⟩

def urlD : VersionedUrl :=
  ⟨⟨"https://example.com", ["@alice", "types", "data-type", "d"]⟩, 1⟩

/-- A property type whose single value shape references data type `urlD`
that has no definition among the inputs (a dangling reference). -/
def danglingProp : AnyType :=
  AnyType.property ⟨urlP, "P", [PropertyValues.dataTypeReference urlD]⟩

/-- What `DependencyAnalyzer::new [danglingProp]` actually produces: the
lookup still knows the dangling id, but the graph has a single node (the
property type) and no edges. -/
def danglingResult : DependencyAnalyzer :=
  ⟨[(urlP, 0), (urlD, 1)], ⟨[⟨urlP, NodeKind.propertyType⟩], []⟩⟩

/-! ### The unification analyzer (`analysis/unify.rs`) -/
/-- `LINK_REF`: the well-known built-in Link entity type id,
`https://blockprotocol.org/@blockprotocol/types/entity-type/link/v/1`. -/
def LINK : VersionedUrl :=
  ⟨⟨"https://blockprotocol.org", ["@blockprotocol", "types", "entity-type", "link"]⟩, 1⟩

/-- `AnalysisError` (declared in the `analysis` module, whose file is not
among the sources; the variants are those `unify.rs` constructs). -/
inductive AnalysisError where
  | incompleteGraph
  | unificationCycle
  | unificationSerde
  | unificationConvert
deriving DecidableEq, Repr

/-- `Facts` from `analysis/facts.rs`: the link fact set.  `unify.rs`
creates it with `Facts::new()` and returns it from `run`; no code in the
sources ever inserts into `links`. -/
structure Facts where
  links : List VersionedUrl
deriving Repr

def Facts.new : Facts := ⟨[]⟩

/-- `CacheResult` from `unify.rs` (values instead of borrows). -/
inductive CacheResult where
  | hit (t : AnyType)
  | miss (t : AnyType)

/-- The `HashMap<VersionedUrl, AnyType>` cache as an association list
(lookup by key; insert replaces an existing key or appends). -/
def cacheGet (c : List (VersionedUrl × AnyType)) (u : VersionedUrl) : Option AnyType :=
  (c.find? fun x => decide (x.1 = u)).map (·.2)

def cacheInsert (c : List (VersionedUrl × AnyType)) (u : VersionedUrl) (v : AnyType) :
    List (VersionedUrl × AnyType) :=
  if c.any fun x => decide (x.1 = u) then
    c.map fun x => if x.1 = u then (u, v) else x
  else c ++ [(u, v)]

def cacheRemove (c : List (VersionedUrl × AnyType)) (u : VersionedUrl) :
    List (VersionedUrl × AnyType) :=
  c.filter fun x => decide (¬x.1 = u)

/-- `UnificationAnalyzer` from `unify.rs`. -/
structure UnificationAnalyzer where
  cache : List (VersionedUrl × AnyType)
  fetch : Option (VersionedUrl → Option AnyType)
  facts : Facts
  missing : List VersionedUrl

/-- `UnificationAnalyzer::new`. -/
def UnificationAnalyzer.new (values : List AnyType) : UnificationAnalyzer :=
  ⟨values.map fun v => (AnyType.id v, v), none, Facts.new, []⟩

/-- `UnificationAnalyzer::with_fetch`. -/
def UnificationAnalyzer.withFetch (a : UnificationAnalyzer)
    (f : VersionedUrl → Option AnyType) : UnificationAnalyzer :=
  { a with fetch := some f }

/-- `UnificationAnalyzer::fetch`: cache hit, recorded miss, or a lazy
fetch; a fetch miss is recorded in `missing` and reported as
`IncompleteGraph`.  The outer `Option` is a panic (the source indexes
`self.cache[id]` after a successful fetch, which panics if the fetched
value carries a different id). -/
def fetchOne (a : UnificationAnalyzer) (id : VersionedUrl) :
    Option (UnificationAnalyzer × Except AnalysisError CacheResult) :=
  if a.missing.any fun x => decide (x = id) then
    some (a, Except.error AnalysisError.incompleteGraph)
  else
    match cacheGet a.cache id with
    | some t => some (a, Except.ok (CacheResult.hit t))
    | none =>
      match a.fetch with
      | none =>
        some ({ a with missing := a.missing ++ [id] },
          Except.error AnalysisError.incompleteGraph)
      | some f =>
        match f id with
        | none =>
          some ({ a with missing := a.missing ++ [id] },
            Except.error AnalysisError.incompleteGraph)
        | some any =>
          let a := { a with cache := cacheInsert a.cache (AnyType.id any) any }
          match cacheGet a.cache id with
          | none => none
          | some t => some (a, Except.ok (CacheResult.miss t))

/-- The mutable state of `UnificationAnalyzer::stack`: the analyzer, the
work stack (head = top), the error accumulator, and the inheritance
graph (node weights, edges, lookup). -/
structure StackSt where
  ua : UnificationAnalyzer
  stack : List VersionedUrl
  errors : List AnalysisError
  nodes : List VersionedUrl
  edges : List (Nat × Nat)
  lookup : List (VersionedUrl × Nat)

/-- `lookup.entry(url).or_insert_with(|| graph.add_node(url))`. -/
def nodeEntry (nodes : List VersionedUrl) (lookup : List (VersionedUrl × Nat))
    (url : VersionedUrl) : Nat × List VersionedUrl × List (VersionedUrl × Nat) :=
  match lookupGet lookup url with
  | some i => (i, nodes, lookup)
  | none => (nodes.length, nodes ++ [url], lookup ++ [(url, nodes.length)])

/-- The `for parent in entity.inherits_from().all_of()` loop of
`UnificationAnalyzer::stack`: skip the Link sentinel, fetch the parent
(accumulating an error and skipping on failure), push a fresh fetch
result onto the work stack, and add the inheritance edge. -/
def processParents (lhs : Nat) : List VersionedUrl → StackSt → Option StackSt
  | [], s => some s
  | parent :: ps, s =>
    if parent = LINK then processParents lhs ps s
    else
      match fetchOne s.ua parent with
      | none => none
      | some (ua, Except.error e) =>
        processParents lhs ps { s with ua, errors := s.errors ++ [e] }
      | some (ua, Except.ok cr) =>
        let stack :=
          match cr with
          | CacheResult.miss any => AnyType.id any :: s.stack
          | CacheResult.hit _ => s.stack
        match nodeEntry s.nodes s.lookup parent with
        | (rhs, nodes, lookup) =>
          processParents lhs ps
            { ua, stack, errors := s.errors, nodes,
              edges := s.edges ++ [(lhs, rhs)], lookup }

/-- The `while let Some(url) = stack.pop()` loop of
`UnificationAnalyzer::stack`.  `none` is either fuel exhaustion (the
source loop is bounded by the number of distinct ids) or the panic of
`&self.cache[&url]`. -/
def stackLoop : Nat → StackSt → Option StackSt
  | 0, _ => none
  | fuel + 1, s =>
    match s.stack with
    | [] => some s
    | url :: rest =>
      match cacheGet s.ua.cache url with
      | none => none
      | some entry =>
        match entry with
        | AnyType.entity e =>
          match nodeEntry s.nodes s.lookup url with
          | (lhs, nodes, lookup) =>
            match processParents lhs e.inheritsFrom
                { s with stack := rest, nodes, lookup } with
            | none => none
            | some s' => stackLoop fuel s'
        | _ => stackLoop fuel { s with stack := rest }

/-- Kahn's algorithm, modelling `petgraph::algo::toposort`: repeatedly
output a node with no incoming edge from the remaining set; if none
exists while nodes remain, the graph has a cycle (self-loops included)
and the sort fails. -/
def kahnLoop (edges : List (Nat × Nat)) : Nat → List Nat → List Nat →
    Except Unit (List Nat)
  | 0, rem, acc => if rem.isEmpty then Except.ok acc.reverse else Except.error ()
  | f + 1, rem, acc =>
    match rem.find? fun v => rem.all fun u => decide ((u, v) ∉ edges) with
    | none => if rem.isEmpty then Except.ok acc.reverse else Except.error ()
    | some v => kahnLoop edges f (rem.erase v) (v :: acc)

def toposort (n : Nat) (edges : List (Nat × Nat)) : Except Unit (List Nat) :=
  kahnLoop edges n (List.range n) []

/-- `UnificationAnalyzer::stack`: build the inheritance graph, fail with
the accumulated fetch errors if any, then toposort (a cycle is reported
as `UnificationCycle`), reverse, and name the nodes. -/
def UnificationAnalyzer.stack (fuel : Nat) (a : UnificationAnalyzer) :
    Option (UnificationAnalyzer × Except (List AnalysisError) (List VersionedUrl)) :=
  match stackLoop fuel ⟨a, (a.cache.map (·.1)).reverse, [], [], [], []⟩ with
  | none => none
  | some s =>
    if s.errors.isEmpty then
      match toposort s.nodes.length s.edges with
      | Except.error _ =>
        some (s.ua, Except.error [AnalysisError.unificationCycle])
      | Except.ok topo =>
        match topo.reverse.mapM fun i => s.nodes[i]? with
        | none => none
        | some ids => some (s.ua, Except.ok ids)
    else some (s.ua, Except.error s.errors)

/-- Modelled from the spec: `repr::EntityType::merge` of the external
`type_system` crate (not among the sources): the parent's properties
populate only keys the child does not already set, the required sets are
merged, and merging two entity types succeeds. -/
def EntityType.merge (child parent : EntityType) : Except AnalysisError EntityType :=
  Except.ok
    { child with
      properties := child.properties ++
        parent.properties.filter fun x =>
          decide (¬child.properties.any fun y => decide (y.1 = x.1)),
      required := child.required ++
        parent.required.filter fun r =>
          decide (¬child.required.any fun q => decide (q = r)) }

/-- The merge loop of `unify_entity`: `entity_or_panic` each parent
(`none` is the panic — the Link sentinel, never fetched by `stack`, is
still among the parents here) and merge it into the accumulator,
accumulating merge errors. -/
def mergeParents (acc : EntityType) (errors : List AnalysisError)
    (cache : List (VersionedUrl × AnyType)) :
    List VersionedUrl → Option (EntityType × List AnalysisError)
  | [] => some (acc, errors)
  | url :: ps =>
    match cacheGet cache url with
    | none => none
    | some (AnyType.entity parent) =>
      match EntityType.merge acc parent with
      | Except.ok acc' => mergeParents acc' errors cache ps
      | Except.error e => mergeParents acc (errors ++ [e]) cache ps
    | some _ => none

/-- `UnificationAnalyzer::unify_entity`: remove the entity, merge every
declared parent into it, reset `allOf` to the declared parents (the
serde round-trip is the identity on this model), and re-insert. -/
def unifyEntity (a : UnificationAnalyzer) (id : VersionedUrl) :
    Option (UnificationAnalyzer × Except (List AnalysisError) Unit) :=
  match cacheGet a.cache id with
  | none => none
  | some (AnyType.entity entity) =>
    let a := { a with cache := cacheRemove a.cache id }
    let parents := entity.inheritsFrom
    match mergeParents entity [] a.cache parents with
    | none => none
    | some (merged, errors) =>
      if errors.isEmpty then
        let entity := { merged with inheritsFrom := parents }
        some ({ a with cache := cacheInsert a.cache entity.id (AnyType.entity entity) },
          Except.ok ())
      else some (a, Except.error errors)
  | some _ => none

/-- `UnificationAnalyzer::unify`: entity types are unified, every other
kind is skipped. -/
def unifyOne (a : UnificationAnalyzer) (id : VersionedUrl) :
    Option (UnificationAnalyzer × Except (List AnalysisError) Unit) :=
  match cacheGet a.cache id with
  | none => none
  | some (AnyType.entity _) => unifyEntity a id
  | some _ => some (a, Except.ok ())

/-- The `for id in stack` loop of `UnificationAnalyzer::run`. -/
def runLoop (a : UnificationAnalyzer) (errors : List AnalysisError) :
    List VersionedUrl →
    Option (Except (List AnalysisError) (List (VersionedUrl × AnyType) × Facts))
  | [] =>
    if errors.isEmpty then some (Except.ok (a.cache, a.facts))
    else some (Except.error errors)
  | id :: ids =>
    match unifyOne a id with
    | none => none
    | some (a, Except.ok _) => runLoop a errors ids
    | some (a, Except.error es) => runLoop a (errors ++ es) ids

/-- `UnificationAnalyzer::run`: `self.stack()?` (note the `?`: a failed
stack pass fails the whole run), then unify every id, accumulating
errors; the cache and facts are returned only if no error occurred. -/
def UnificationAnalyzer.run (fuel : Nat) (a : UnificationAnalyzer) :
    Option (Except (List AnalysisError) (List (VersionedUrl × AnyType) × Facts)) :=
  match UnificationAnalyzer.stack fuel a with
  | none => none
  | some (_, Except.error es) => some (Except.error es)
  | some (a, Except.ok ids) => runLoop a [] ids

/-! ### Unification scenarios -/
def uE1 : VersionedUrl := ⟨⟨"https://example.com", ["@a", "types", "entity-type", "e1"]⟩, 1⟩

def uE2 : VersionedUrl := ⟨⟨"https://example.com", ["@a", "types", "entity-type", "e2"]⟩, 1⟩

def uM1 : VersionedUrl := ⟨⟨"https://example.com", ["@a", "types", "entity-type", "m1"]⟩, 1⟩

def uM2 : VersionedUrl := ⟨⟨"https://example.com", ["@a", "types", "entity-type", "m2"]⟩, 1⟩

/-- Entity `uE1` inherits the missing `uM1`; entity `uE2` declares no
parents and is entirely unaffected; the fetch callback returns `None`
for everything. -/
def anaMissing : UnificationAnalyzer :=
  (UnificationAnalyzer.new
    [AnyType.entity ⟨uE1, "E1", [], [], [uM1]⟩,
     AnyType.entity ⟨uE2, "E2", [], [], []⟩]).withFetch fun _ => none

/-- Two unaffected-by-each-other entities, each inheriting a distinct
missing parent. -/
def anaMissingTwo : UnificationAnalyzer :=
  (UnificationAnalyzer.new
    [AnyType.entity ⟨uE1, "E1", [], [], [uM1]⟩,
     AnyType.entity ⟨uE2, "E2", [], [], [uM2]⟩]).withFetch fun _ => none

/-- An entity whose only declared parent is the built-in Link id. -/
def anaLink : UnificationAnalyzer :=
  UnificationAnalyzer.new [AnyType.entity ⟨uE1, "E", [], [], [LINK]⟩]

/-! ### The name resolver (`name.rs`) -/
/-- Splitting a character list at separator characters (structural model
of `String.split`, which itself does not reduce in the kernel). -/
def splitChars (p : Char → Bool) : List Char → List (List Char)
  | [] => [[]]
  | c :: cs =>
    let r := splitChars p cs
    if p c then [] :: r
    else
      match r with
      | [] => [[c]]
      | w :: ws => (c :: w) :: ws

def capitalize (w : List Char) : String :=
  match w with
  | [] => ""
  | c :: cs => String.mk (c.toUpper :: cs.map Char.toLower)

/-- Model of `heck::ToPascalCase`: split on separators and word-case
each chunk. -/
def toPascalCase (s : String) : String :=
  String.join ((splitChars (fun c => c == '-' || c == '_' || c == ' ') s.data).map
    capitalize)

/-- Model of `heck::ToSnekCase`: lower-case with separators mapped to
underscores. -/
def toSnekCase (s : String) : String :=
  String.mk (s.data.map fun c => if c == '-' || c == ' ' then '_' else c.toLower)

/-- `Kind` from `name.rs` (with its `Display` strings). -/
inductive Kind where
  | data
  | property
  | entity
deriving DecidableEq, Repr

def Kind.str : Kind → String
  | Kind.data => "data"
  | Kind.property => "property"
  | Kind.entity => "entity"

/-- `UrlParts` from `name.rs` (`namespace` is a reserved word here). -/
structure UrlParts where
  origin : String
  namespc : Option String
  kind : Kind
  id : String
deriving DecidableEq, Repr

def kindOf : String → Option Kind
  | "data-type" => some Kind.data
  | "property-type" => some Kind.property
  | "entity-type" => some Kind.entity
  | _ => none

/-- The `BLOCKPROTOCOL_FLAVOR` pattern
(`/@(?P<namespace>[\w-]+)/types/(?P<kind>data|property|entity)-type/(?P<id>[\w\-_%]+)/`,
`Mode::MatchPath`) scanned structurally over the path segments. -/
def bpScan : List String → Option (String × Kind × String)
  | ns :: "types" :: kt :: id :: rest =>
    (match kindOf kt with
      | some k =>
        if (match ns.data with
            | c :: _ :: _ => c == '@'
            | _ => false) && decide (¬id = "") then
          some (String.mk (ns.data.drop 1), k, id)
        else bpScan ("types" :: kt :: id :: rest)
      | none => bpScan ("types" :: kt :: id :: rest))
  | _ :: rest => bpScan rest
  | [] => none

/-- `NameResolver::url_into_parts` with the default configuration built
by `NameResolver::new` (built-in flavors only, no overrides — overrides
would only rewrite the origin). -/
def urlIntoParts (base : BaseUrl) : Option UrlParts :=
  match bpScan base.path with
  | some x => some ⟨base.origin, some x.1, x.2.1, x.2.2⟩
  | none => none

/-- `Name` from `name.rs`. -/
structure Name where
  value : String
  alias? : Option String
deriving DecidableEq, Repr

inductive LocationKind where
  | latest (other : List VersionedUrl)
  | version
deriving DecidableEq, Repr

/-- `Path` from `name.rs` (directories plus file). -/
structure Path where
  dirs : List String
  file : String
deriving DecidableEq, Repr

structure Location where
  path : Path
  name : Name
  alias? : Option String
  kind : LocationKind
deriving DecidableEq, Repr

inductive ModuleFlavor where
  | modRs
  | moduleRs
deriving DecidableEq, Repr

/-- `NameResolver` (the `analyzer` field is not consulted by `location`,
`locations` or `name` and is omitted; `new` defaults the module flavor
to `ModRs` and leaves flavors and overrides empty). -/
structure NameResolver where
  lookup : List (VersionedUrl × AnyType)
  module : ModuleFlavor

/-- Ascending insertion into the `BTreeMap<u32, &AnyType>` of
`other_versions_of_url` (keys are unique per run since the lookup map is
keyed by the full versioned URL). -/
def insertVersion (x : Nat × AnyType) : List (Nat × AnyType) → List (Nat × AnyType)
  | [] => [x]
  | y :: ys => if x.1 ≤ y.1 then x :: y :: ys else y :: insertVersion x ys

/-- `NameResolver::other_versions_of_url`. -/
def otherVersionsOfUrl (lookup : List (VersionedUrl × AnyType)) (url : VersionedUrl) :
    List (Nat × AnyType) :=
  ((lookup.filter fun x => decide (x.1.base = url.base) && decide (¬x.1 = url)).map
    fun x => (x.1.version, x.2)).foldl (fun acc x => insertVersion x acc) []

/-- The first-pass name computed at the top of `determine_name`
(`self.lookup[url]` panics when the id is unknown and no flavor matched,
hence the `Option`). -/
def firstPassName (lookup : List (VersionedUrl × AnyType)) (url : VersionedUrl)
    (parts : Option UrlParts) : Option String :=
  match parts with
  | none => (cacheGet lookup url).map fun ty => toPascalCase (AnyType.title ty)
  | some p => some (toPascalCase p.id)

/-- `NameResolver::determine_name`. -/
def determineName (lookup : List (VersionedUrl × AnyType)) (url : VersionedUrl)
    (parts : Option UrlParts) (versions : List (Nat × AnyType)) : Option Name :=
  match firstPassName lookup url parts with
  | none => none
  | some name =>
    let aliasV := some (name ++ "V" ++ toString url.version)
    match versions.getLast? with
    | some x =>
      if url.version < x.1 then
        some ⟨name ++ "V" ++ toString url.version, none⟩
      else some ⟨name, aliasV⟩
    | none => some ⟨name, aliasV⟩

/-- `NameResolver::name`. -/
def NameResolver.name (r : NameResolver) (url : VersionedUrl) : Option Name :=
  determineName r.lookup url (urlIntoParts url.base) (otherVersionsOfUrl r.lookup url)

/-- `base_url.to_url().as_str()` for the fallback file name. -/
def baseUrlString (b : BaseUrl) : String :=
  b.origin ++ "/" ++ String.intercalate "/" b.path ++ "/"

/-- `NameResolver::location`. -/
def NameResolver.location (r : NameResolver) (url : VersionedUrl) : Option Location :=
  let versions := otherVersionsOfUrl r.lookup url
  let parts := urlIntoParts url.base
  let path : Path :=
    match parts with
    | none => ⟨[], toSnekCase (baseUrlString url.base)⟩
    | some p =>
      ⟨[toSnekCase p.origin] ++
        (match p.namespc with
          | some ns => [toSnekCase ns]
          | none => []) ++ [Kind.str p.kind],
        toSnekCase p.id⟩
  match determineName r.lookup url parts versions with
  | none => none
  | some name =>
    match versions.getLast? with
    | none => some ⟨path, name, none, LocationKind.latest []⟩
    | some x =>
      if url.version < x.1 then
        some ⟨⟨path.dirs ++ [path.file], "v" ++ toString url.version⟩, name, none,
          LocationKind.version⟩
      else
        let kind := LocationKind.latest (versions.map fun v => AnyType.id v.2)
        match r.module with
        | ModuleFlavor.modRs =>
          some ⟨⟨path.dirs ++ [path.file], "mod"⟩, name, none, kind⟩
        | ModuleFlavor.moduleRs => some ⟨path, name, none, kind⟩

/-- `NameResolver::locations`: group the per-id locations by their name
string (`locations_by_base`, in first-seen order, members in input
order), then suffix each member of a colliding group — on the
`Location::alias` field — with its position within the group. -/
def NameResolver.locations (r : NameResolver) (urls : List VersionedUrl) :
    Option (List (VersionedUrl × Location)) :=
  match urls.mapM fun u => (r.location u).map fun l => (u, l) with
  | none => none
  | some pairs =>
    let groups := pairs.foldl
      (fun (gs : List (String × List (VersionedUrl × Location))) p =>
        if gs.any fun g => decide (g.1 = p.2.name.value) then
          gs.map fun g => if g.1 = p.2.name.value then (g.1, g.2 ++ [p]) else g
        else gs ++ [(p.2.name.value, [p])])
      []
    some (groups.foldl
      (fun out g =>
        let members :=
          if decide (1 < g.2.length) then
            g.2.enum.map fun ip =>
              (ip.2.1, { ip.2.2 with alias? := some (ip.2.2.name.value ++ toString ip.1) })
          else g.2
        out ++ members)
      [])

/-- Lookup in the output map of `locations`. -/
def findLoc (out : List (VersionedUrl × Location)) (u : VersionedUrl) : Option Location :=
  (out.find? fun x => decide (x.1 = u)).map (·.2)

/-! ### Name collisions (`locations`) -/
/-- Two ids in different namespaces whose first-pass names collide (no
flavor matches either, and both titles are the same). -/
def twoTitleResolver (x y : VersionedUrl) (t : String) : NameResolver :=
  ⟨[(x, AnyType.data ⟨x, t⟩), (y, AnyType.data ⟨y, t⟩)], ModuleFlavor.modRs⟩

def uX : VersionedUrl := ⟨⟨"https://one.test", ["x"]⟩, 1⟩

def uY : VersionedUrl := ⟨⟨"https://two.test", ["y"]⟩, 1⟩

def resolverXY : NameResolver := twoTitleResolver uX uY "Foo"

def uV1 : VersionedUrl := ⟨⟨"https://one.test", ["x"]⟩, 1⟩

def uV2 : VersionedUrl := ⟨⟨"https://one.test", ["x"]⟩, 2⟩

def lkTwo : List (VersionedUrl × AnyType) :=
  [(uV1, AnyType.data ⟨uV1, "Foo"⟩), (uV2, AnyType.data ⟨uV2, "Foo"⟩)]

/-! ### Structural lemmas about the neighbour loop -/
theorem vn_stack_ext (p : PEdges) (last : Nat) :
    ∀ ws s, ∃ pre, (visitNeighbors p last ws s).stack = pre ++ s.stack := by
  intro ws
  induction ws with
  | nil => intro s; exact ⟨[], rfl⟩
  | cons w ws ih =>
    intro s
    by_cases hw : w = last
    · simpa [visitNeighbors, hw] using ih s
    · cases hv : s.visited w with
      | onStack =>
        obtain ⟨pre, hp⟩ := ih { s with cycles := s.cycles ++ [recordCycle p s.stack w] }
        exact ⟨pre, by simpa [visitNeighbors, hw, hv] using hp⟩
      | unvisited =>
        obtain ⟨pre, hp⟩ := ih ⟨w :: s.stack, upd s.visited w CycleState.onStack, s.cycles⟩
        refine ⟨pre ++ [w], ?_⟩
        simpa [visitNeighbors, hw, hv] using hp
      | processed =>
        simpa [visitNeighbors, hw, hv] using ih s

theorem vn_visited_cases (p : PEdges) (last : Nat) :
    ∀ ws s v, (visitNeighbors p last ws s).visited v = s.visited v ∨
      (s.visited v = CycleState.unvisited ∧
        (visitNeighbors p last ws s).visited v = CycleState.onStack) := by
  intro ws
  induction ws with
  | nil => intro s v; exact Or.inl rfl
  | cons w ws ih =>
    intro s v
    by_cases hw : w = last
    · simpa [visitNeighbors, hw] using ih s v
    · cases hv : s.visited w with
      | onStack =>
        simpa [visitNeighbors, hw, hv] using
          ih { s with cycles := s.cycles ++ [recordCycle p s.stack w] } v
      | unvisited =>
        have hrw : visitNeighbors p last (w :: ws) s =
            visitNeighbors p last ws
              ⟨w :: s.stack, upd s.visited w CycleState.onStack, s.cycles⟩ := by
          simp [visitNeighbors, hw, hv]
        rw [hrw]
        rcases ih ⟨w :: s.stack, upd s.visited w CycleState.onStack, s.cycles⟩ v
          with h2 | ⟨h2, h3⟩
        · by_cases hvw : v = w
          · subst hvw
            right
            exact ⟨hv, by simpa [upd] using h2⟩
          · left
            rw [h2]
            simp [upd, hvw]
        · by_cases hvw : v = w
          · subst hvw
            right
            exact ⟨hv, h3⟩
          · simp only [upd, if_neg hvw] at h2
            right
            exact ⟨h2, h3⟩
      | processed =>
        simpa [visitNeighbors, hw, hv] using ih s v

theorem vn_cycles_ext (p : PEdges) (last : Nat) :
    ∀ ws s, ∃ suf, (visitNeighbors p last ws s).cycles = s.cycles ++ suf := by
  intro ws
  induction ws with
  | nil => intro s; exact ⟨[], by simp [visitNeighbors]⟩
  | cons w ws ih =>
    intro s
    by_cases hw : w = last
    · simpa [visitNeighbors, hw] using ih s
    · cases hv : s.visited w with
      | onStack =>
        obtain ⟨suf, hp⟩ := ih { s with cycles := s.cycles ++ [recordCycle p s.stack w] }
        refine ⟨[recordCycle p s.stack w] ++ suf, ?_⟩
        simp [visitNeighbors, hw, hv, hp]
      | unvisited =>
        obtain ⟨suf, hp⟩ := ih ⟨w :: s.stack, upd s.visited w CycleState.onStack, s.cycles⟩
        exact ⟨suf, by simpa [visitNeighbors, hw, hv] using hp⟩
      | processed =>
        simpa [visitNeighbors, hw, hv] using ih s

theorem vn_onstack_stack (p : PEdges) (last : Nat) :
    ∀ ws s, (∀ v, s.visited v = CycleState.onStack → v ∈ s.stack) →
      ∀ v, (visitNeighbors p last ws s).visited v = CycleState.onStack →
        v ∈ (visitNeighbors p last ws s).stack := by
  intro ws
  induction ws with
  | nil => intro s h v; exact h v
  | cons w ws ih =>
    intro s hs v
    by_cases hw : w = last
    · simpa [visitNeighbors, hw] using ih s hs v
    · cases hv : s.visited w with
      | onStack =>
        simpa [visitNeighbors, hw, hv] using
          ih { s with cycles := s.cycles ++ [recordCycle p s.stack w] } hs v
      | unvisited =>
        have hpre : ∀ u, upd s.visited w CycleState.onStack u = CycleState.onStack →
            u ∈ w :: s.stack := by
          intro u hu
          by_cases huw : u = w
          · subst huw; exact List.mem_cons_self _ _
          · simp only [upd, if_neg huw] at hu
            exact List.mem_cons_of_mem _ (hs u hu)
        simpa [visitNeighbors, hw, hv] using
          ih ⟨w :: s.stack, upd s.visited w CycleState.onStack, s.cycles⟩ hpre v
      | processed =>
        simpa [visitNeighbors, hw, hv] using ih s hs v

/-! ### Lemmas about one DFS run -/
theorem selfLoopRecord_sub (p : PEdges) (last : Nat) (cs : List (List Nat))
    (c : List Nat) (h : c ∈ cs) : c ∈ selfLoopRecord p last cs := by
  unfold selfLoopRecord
  cases firstSelfLoop p last <;> simp [h]

theorem selfLoopRecord_self (p : PEdges) (last e : Nat)
    (h : firstSelfLoop p last = some e) (cs : List (List Nat)) :
    [e] ∈ selfLoopRecord p last cs := by
  simp [selfLoopRecord, h]

theorem pdt_cons (p : PEdges) (fuel last : Nat) (rest : List Nat)
    (vis : Nat → CycleState) (cs : List (List Nat)) :
    processDfsTree p (fuel + 1) ⟨last :: rest, vis, cs⟩ =
      if (neighborsDirected p last).all fun w =>
          w == last || vis w == CycleState.processed then
        processDfsTree p fuel
          ⟨rest, upd vis last CycleState.processed, selfLoopRecord p last cs⟩
      else
        processDfsTree p fuel
          (visitNeighbors p last (neighborsDirected p last)
            ⟨last :: rest, vis, selfLoopRecord p last cs⟩) := rfl

theorem pdt_some_stack_nil (p : PEdges) :
    ∀ fuel s s', processDfsTree p fuel s = some s' → s'.stack = [] := by
  intro fuel
  induction fuel with
  | zero => intro s s' h; simp [processDfsTree] at h
  | succ fuel ih =>
    intro s s' h
    obtain ⟨stack, vis, cs⟩ := s
    cases stack with
    | nil =>
      simp only [processDfsTree] at h
      injection h with h
      subst h
      rfl
    | cons last rest =>
      rw [pdt_cons] at h
      by_cases hc : ((neighborsDirected p last).all fun w =>
          w == last || vis w == CycleState.processed) = true
      · rw [if_pos hc] at h; exact ih _ _ h
      · rw [if_neg hc] at h; exact ih _ _ h

theorem pdt_processed_mono (p : PEdges) (v : Nat) :
    ∀ fuel s s', processDfsTree p fuel s = some s' →
      s.visited v = CycleState.processed → s'.visited v = CycleState.processed := by
  intro fuel
  induction fuel with
  | zero => intro s s' h; simp [processDfsTree] at h
  | succ fuel ih =>
    intro s s' h hv
    obtain ⟨stack, vis, cs⟩ := s
    cases stack with
    | nil =>
      simp only [processDfsTree] at h
      injection h with h
      subst h
      exact hv
    | cons last rest =>
      rw [pdt_cons] at h
      by_cases hc : ((neighborsDirected p last).all fun w =>
          w == last || vis w == CycleState.processed) = true
      · rw [if_pos hc] at h
        refine ih _ _ h ?_
        by_cases hvl : v = last
        · simp [upd, hvl]
        · simpa [upd, hvl] using hv
      · rw [if_neg hc] at h
        refine ih _ _ h ?_
        rcases vn_visited_cases p last (neighborsDirected p last)
            ⟨last :: rest, vis, selfLoopRecord p last cs⟩ v with h2 | ⟨h2, h3⟩
        · rw [h2]; exact hv
        · rw [hv] at h2; cases h2

theorem pdt_cycles_mono (p : PEdges) (c : List Nat) :
    ∀ fuel s s', processDfsTree p fuel s = some s' → c ∈ s.cycles → c ∈ s'.cycles := by
  intro fuel
  induction fuel with
  | zero => intro s s' h; simp [processDfsTree] at h
  | succ fuel ih =>
    intro s s' h hc
    obtain ⟨stack, vis, cs⟩ := s
    cases stack with
    | nil =>
      simp only [processDfsTree] at h
      injection h with h
      subst h
      exact hc
    | cons last rest =>
      rw [pdt_cons] at h
      by_cases hcond : ((neighborsDirected p last).all fun w =>
          w == last || vis w == CycleState.processed) = true
      · rw [if_pos hcond] at h
        exact ih _ _ h (selfLoopRecord_sub p last cs c hc)
      · rw [if_neg hcond] at h
        refine ih _ _ h ?_
        obtain ⟨suf, hsuf⟩ := vn_cycles_ext p last (neighborsDirected p last)
          ⟨last :: rest, vis, selfLoopRecord p last cs⟩
        rw [hsuf]
        exact List.mem_append_left _ (selfLoopRecord_sub p last cs c hc)

theorem pdt_trap_not_processed (p : PEdges) (S : List Nat)
    (hstep : ∀ v ∈ S, ∃ w, w ∈ S ∧ w ≠ v ∧ w ∈ neighborsDirected p v) :
    ∀ fuel s s', processDfsTree p fuel s = some s' →
      (∀ v ∈ S, s.visited v ≠ CycleState.processed) →
      ∀ v ∈ S, s'.visited v ≠ CycleState.processed := by
  intro fuel
  induction fuel with
  | zero => intro s s' h; simp [processDfsTree] at h
  | succ fuel ih =>
    intro s s' h hInv
    obtain ⟨stack, vis, cs⟩ := s
    cases stack with
    | nil =>
      simp only [processDfsTree] at h
      injection h with h
      subst h
      exact hInv
    | cons last rest =>
      rw [pdt_cons] at h
      by_cases hc : ((neighborsDirected p last).all fun w =>
          w == last || vis w == CycleState.processed) = true
      · rw [if_pos hc] at h
        by_cases hlS : last ∈ S
        · exfalso
          obtain ⟨w, hwS, hwne, hwnb⟩ := hstep last hlS
          have := (List.all_eq_true.mp hc) w hwnb
          rcases Bool.or_eq_true_iff.mp this with h1 | h2
          · exact hwne (by simpa using h1)
          · exact hInv w hwS (by simpa using h2)
        · refine ih _ _ h ?_
          intro v hvS
          have hvl : v ≠ last := fun hvl => hlS (hvl ▸ hvS)
          simpa [upd, hvl] using hInv v hvS
      · rw [if_neg hc] at h
        refine ih _ _ h ?_
        intro v hvS
        rcases vn_visited_cases p last (neighborsDirected p last)
            ⟨last :: rest, vis, selfLoopRecord p last cs⟩ v with h2 | ⟨h2, h3⟩
        · rw [h2]; exact hInv v hvS
        · rw [h3]; simp

theorem pdt_stack_processed (p : PEdges) :
    ∀ fuel s s', processDfsTree p fuel s = some s' →
      ∀ v ∈ s.stack, s'.visited v = CycleState.processed := by
  intro fuel
  induction fuel with
  | zero => intro s s' h; simp [processDfsTree] at h
  | succ fuel ih =>
    intro s s' h v hv
    obtain ⟨stack, vis, cs⟩ := s
    cases stack with
    | nil => cases hv
    | cons last rest =>
      rw [pdt_cons] at h
      by_cases hc : ((neighborsDirected p last).all fun w =>
          w == last || vis w == CycleState.processed) = true
      · rw [if_pos hc] at h
        by_cases hvl : v = last
        · subst hvl
          exact pdt_processed_mono p v fuel _ _ h (by simp [upd])
        · rcases List.mem_cons.mp hv with h1 | h1
          · exact absurd h1 hvl
          · exact ih _ _ h v h1
      · rw [if_neg hc] at h
        refine ih _ _ h v ?_
        obtain ⟨pre, hpre⟩ := vn_stack_ext p last (neighborsDirected p last)
          ⟨last :: rest, vis, selfLoopRecord p last cs⟩
        rw [hpre]
        exact List.mem_append_right _ hv

theorem pdt_onstack_stack_inv (p : PEdges) :
    ∀ fuel s s', processDfsTree p fuel s = some s' →
      (∀ v, s.visited v = CycleState.onStack → v ∈ s.stack) →
      ∀ v, s'.visited v = CycleState.onStack → v ∈ s'.stack := by
  intro fuel
  induction fuel with
  | zero => intro s s' h; simp [processDfsTree] at h
  | succ fuel ih =>
    intro s s' h hInv
    obtain ⟨stack, vis, cs⟩ := s
    cases stack with
    | nil =>
      simp only [processDfsTree] at h
      injection h with h
      subst h
      exact hInv
    | cons last rest =>
      rw [pdt_cons] at h
      by_cases hc : ((neighborsDirected p last).all fun w =>
          w == last || vis w == CycleState.processed) = true
      · rw [if_pos hc] at h
        refine ih _ _ h ?_
        intro v hv
        by_cases hvl : v = last
        · simp [upd, hvl] at hv
        · simp only [upd, if_neg hvl] at hv
          have := hInv v hv
          rcases List.mem_cons.mp this with h1 | h1
          · exact absurd h1 hvl
          · exact h1
      · rw [if_neg hc] at h
        exact ih _ _ h (vn_onstack_stack p last (neighborsDirected p last)
          ⟨last :: rest, vis, selfLoopRecord p last cs⟩ hInv)

theorem pdt_no_onstack (p : PEdges) (fuel : Nat) (s s' : DfsState)
    (h : processDfsTree p fuel s = some s')
    (hInv : ∀ v, s.visited v = CycleState.onStack → v ∈ s.stack) :
    ∀ v, s'.visited v ≠ CycleState.onStack := by
  intro v hv
  have hmem := pdt_onstack_stack_inv p fuel s s' h hInv v hv
  rw [pdt_some_stack_nil p fuel s s' h] at hmem
  cases hmem

theorem pdt_selfloop_mem (p : PEdges) (v e : Nat)
    (hsl : firstSelfLoop p v = some e) :
    ∀ fuel s s', processDfsTree p fuel s = some s' →
      v ∈ s.stack → [e] ∈ s'.cycles := by
  intro fuel
  induction fuel with
  | zero => intro s s' h; simp [processDfsTree] at h
  | succ fuel ih =>
    intro s s' h hv
    obtain ⟨stack, vis, cs⟩ := s
    cases stack with
    | nil => cases hv
    | cons last rest =>
      rw [pdt_cons] at h
      have hrec : v = last → [e] ∈ selfLoopRecord p last cs := by
        intro hvl
        subst hvl
        exact selfLoopRecord_self p v e hsl cs
      by_cases hc : ((neighborsDirected p last).all fun w =>
          w == last || vis w == CycleState.processed) = true
      · rw [if_pos hc] at h
        by_cases hvl : v = last
        · exact pdt_cycles_mono p [e] fuel _ _ h (hrec hvl)
        · rcases List.mem_cons.mp hv with h1 | h1
          · exact absurd h1 hvl
          · exact ih _ _ h h1
      · rw [if_neg hc] at h
        by_cases hvl : v = last
        · refine pdt_cycles_mono p [e] fuel _ _ h ?_
          obtain ⟨suf, hsuf⟩ := vn_cycles_ext p last (neighborsDirected p last)
            ⟨last :: rest, vis, selfLoopRecord p last cs⟩
          rw [hsuf]
          exact List.mem_append_left _ (hrec hvl)
        · refine ih _ _ h ?_
          obtain ⟨pre, hpre⟩ := vn_stack_ext p last (neighborsDirected p last)
            ⟨last :: rest, vis, selfLoopRecord p last cs⟩
          rw [hpre]
          exact List.mem_append_right _ hv

theorem pdt_selfloop_processed (p : PEdges) (v e : Nat)
    (hsl : firstSelfLoop p v = some e) :
    ∀ fuel s s', processDfsTree p fuel s = some s' →
      (s.visited v = CycleState.processed → [e] ∈ s.cycles) →
      s'.visited v = CycleState.processed → [e] ∈ s'.cycles := by
  intro fuel
  induction fuel with
  | zero => intro s s' h; simp [processDfsTree] at h
  | succ fuel ih =>
    intro s s' h hQ
    obtain ⟨stack, vis, cs⟩ := s
    cases stack with
    | nil =>
      simp only [processDfsTree] at h
      injection h with h
      subst h
      exact hQ
    | cons last rest =>
      rw [pdt_cons] at h
      by_cases hc : ((neighborsDirected p last).all fun w =>
          w == last || vis w == CycleState.processed) = true
      · rw [if_pos hc] at h
        refine ih _ _ h ?_
        intro hproc
        by_cases hvl : v = last
        · subst hvl
          exact selfLoopRecord_self p v e hsl cs
        · simp only [upd, if_neg hvl] at hproc
          exact selfLoopRecord_sub p last cs [e] (hQ hproc)
      · rw [if_neg hc] at h
        refine ih _ _ h ?_
        intro hproc
        obtain ⟨suf, hsuf⟩ := vn_cycles_ext p last (neighborsDirected p last)
          ⟨last :: rest, vis, selfLoopRecord p last cs⟩
        rw [hsuf]
        refine List.mem_append_left _ ?_
        by_cases hvl : v = last
        · subst hvl
          exact selfLoopRecord_self p v e hsl cs
        · rcases vn_visited_cases p last (neighborsDirected p last)
              ⟨last :: rest, vis, selfLoopRecord p last cs⟩ v with h2 | ⟨h2, h3⟩
          · rw [hproc] at h2
            exact selfLoopRecord_sub p last cs [e] (hQ h2.symm)
          · rw [hproc] at h3
            cases h3

/-! ### Lemmas about the outer loop of `find_cycles` -/
theorem fca_cycles_mono (p : PEdges) (fuel : Nat) (c : List Nat) :
    ∀ vs visited cycles out, findCyclesAux p fuel vs visited cycles = some out →
      c ∈ cycles → c ∈ out.2 := by
  intro vs
  induction vs with
  | nil =>
    intro visited cycles out h hc
    simp only [findCyclesAux] at h
    injection h with h
    subst h
    exact hc
  | cons v vs ih =>
    intro visited cycles out h hc
    simp only [findCyclesAux] at h
    by_cases hv : (visited v == CycleState.unvisited) = true
    · rw [if_pos hv] at h
      cases hpdt : processDfsTree p fuel
          ⟨[v], upd visited v CycleState.onStack, cycles⟩ with
      | none => rw [hpdt] at h; cases h
      | some s =>
        rw [hpdt] at h
        exact ih _ _ _ h (pdt_cycles_mono p c fuel _ _ hpdt hc)
    · rw [if_neg hv] at h
      exact ih _ _ _ h hc

theorem fca_trap_none (p : PEdges) (fuel : Nat) (S : List Nat)
    (hstep : ∀ v ∈ S, ∃ w, w ∈ S ∧ w ≠ v ∧ w ∈ neighborsDirected p v) :
    ∀ vs visited cycles r, r ∈ S → r ∈ vs →
      (∀ v ∈ S, visited v ≠ CycleState.processed) →
      (∀ v, visited v ≠ CycleState.onStack) →
      findCyclesAux p fuel vs visited cycles = none := by
  intro vs
  induction vs with
  | nil => intro visited cycles r hrS hrvs hP hO; cases hrvs
  | cons v vs ih =>
    intro visited cycles r hrS hrvs hP hO
    simp only [findCyclesAux]
    by_cases hv : (visited v == CycleState.unvisited) = true
    · rw [if_pos hv]
      cases hpdt : processDfsTree p fuel
          ⟨[v], upd visited v CycleState.onStack, cycles⟩ with
      | none => rfl
      | some s =>
        have hInvEntry : ∀ u ∈ S,
            (upd visited v CycleState.onStack) u ≠ CycleState.processed := by
          intro u huS
          by_cases huv : u = v
          · simp [upd, huv]
          · simpa [upd, huv] using hP u huS
        have hOnEntry : ∀ u,
            (upd visited v CycleState.onStack) u = CycleState.onStack → u ∈ [v] := by
          intro u hu
          by_cases huv : u = v
          · simp [huv]
          · simp only [upd, if_neg huv] at hu
            exact absurd hu (hO u)
        by_cases hvS : v ∈ S
        · exfalso
          have h1 := pdt_trap_not_processed p S hstep fuel _ _ hpdt hInvEntry v hvS
          have h2 := pdt_stack_processed p fuel _ _ hpdt v (by simp)
          exact h1 h2
        · have hrv : r ≠ v := fun hrv => hvS (hrv ▸ hrS)
          have hrvs' : r ∈ vs := by
            rcases List.mem_cons.mp hrvs with h1 | h1
            · exact absurd h1 hrv
            · exact h1
          exact ih s.visited s.cycles r hrS hrvs'
            (pdt_trap_not_processed p S hstep fuel _ _ hpdt hInvEntry)
            (pdt_no_onstack p fuel _ _ hpdt hOnEntry)
    · rw [if_neg hv]
      have hrv : r ≠ v := by
        intro hrv
        subst hrv
        cases hvr : visited r with
        | unvisited => exact hv (by simp [hvr])
        | onStack => exact hO r hvr
        | processed => exact hP r hrS hvr
      have hrvs' : r ∈ vs := by
        rcases List.mem_cons.mp hrvs with h1 | h1
        · exact absurd h1 hrv
        · exact h1
      exact ih visited cycles r hrS hrvs' hP hO

theorem fca_selfloop (p : PEdges) (fuel : Nat) (v e : Nat)
    (hsl : firstSelfLoop p v = some e) :
    ∀ vs visited cycles out,
      findCyclesAux p fuel vs visited cycles = some out →
      (∀ u, visited u ≠ CycleState.onStack) →
      (visited v = CycleState.processed → [e] ∈ cycles) →
      v ∈ vs →
      [e] ∈ out.2 := by
  intro vs
  induction vs with
  | nil => intro _ _ _ _ _ _ hvvs; cases hvvs
  | cons u vs ih =>
    intro visited cycles out h hO hQ hvvs
    simp only [findCyclesAux] at h
    by_cases hu : (visited u == CycleState.unvisited) = true
    · rw [if_pos hu] at h
      cases hpdt : processDfsTree p fuel
          ⟨[u], upd visited u CycleState.onStack, cycles⟩ with
      | none => rw [hpdt] at h; cases h
      | some s =>
        rw [hpdt] at h
        have hOnEntry : ∀ w,
            (upd visited u CycleState.onStack) w = CycleState.onStack → w ∈ [u] := by
          intro w hw
          by_cases hwu : w = u
          · simp [hwu]
          · simp only [upd, if_neg hwu] at hw
            exact absurd hw (hO w)
        by_cases huv : v = u
        · subst huv
          have hmem := pdt_selfloop_mem p v e hsl fuel _ _ hpdt (by simp)
          exact fca_cycles_mono p fuel [e] vs s.visited s.cycles out h hmem
        · have hvvs' : v ∈ vs := by
            rcases List.mem_cons.mp hvvs with h1 | h1
            · exact absurd h1 huv
            · exact h1
          refine ih s.visited s.cycles out h
            (pdt_no_onstack p fuel _ _ hpdt hOnEntry) ?_ hvvs'
          refine pdt_selfloop_processed p v e hsl fuel _ _ hpdt ?_
          intro hproc
          simp only [upd, if_neg huv] at hproc
          exact hQ hproc
    · rw [if_neg hu] at h
      by_cases huv : v = u
      · subst huv
        have hproc : visited v = CycleState.processed := by
          cases hvv : visited v with
          | unvisited => exact absurd (by simp [hvv]) hu
          | onStack => exact absurd hvv (hO v)
          | processed => rfl
        exact fca_cycles_mono p fuel [e] vs visited cycles out h (hQ hproc)
      · have hvvs' : v ∈ vs := by
          rcases List.mem_cons.mp hvvs with h1 | h1
          · exact absurd h1 huv
          · exact h1
        exact ih visited cycles out h hO hQ hvvs'

/-- Divergence of `find_cycles`: a set of nodes each of which has a
distinct out-neighbour inside the set (for instance the node set of a
directed cycle of length at least two) makes `process_dfs_tree` loop
forever, for every iteration budget. -/
theorem findCycles_none_of_trap (fuel n : Nat) (p : PEdges) (S : List Nat)
    (hstep : ∀ v ∈ S, ∃ w, w ∈ S ∧ w ≠ v ∧ w ∈ neighborsDirected p v)
    (r : Nat) (hrS : r ∈ S) (hrn : r < n) :
    findCycles fuel n p = none := by
  unfold findCycles
  rw [fca_trap_none p fuel S hstep (List.range n) (fun _ => CycleState.unvisited) [] r
    hrS (List.mem_range.mpr hrn)
    (fun _ _ h => CycleState.noConfusion h)
    (fun _ h => CycleState.noConfusion h)]
  rfl

/-- Completeness for self-loops: whenever `find_cycles` terminates, the
self-loop record of every node that has one is among the returned
cycles. -/
theorem findCycles_selfloop (fuel n : Nat) (p : PEdges) (v e : Nat)
    (hsl : firstSelfLoop p v = some e) (hvn : v < n) (cs : List (List Nat))
    (h : findCycles fuel n p = some cs) : [e] ∈ cs := by
  unfold findCycles at h
  cases hfca : findCyclesAux p fuel (List.range n) (fun _ => CycleState.unvisited) [] with
  | none => rw [hfca] at h; cases h
  | some out =>
    rw [hfca] at h
    simp only [Option.map_some'] at h
    injection h with h
    rw [← h]
    exact fca_selfloop p fuel v e hsl (List.range n)
      (fun _ => CycleState.unvisited) [] out hfca
      (fun _ hx => CycleState.noConfusion hx)
      (fun hx => absurd hx (fun hx => CycleState.noConfusion hx))
      (List.mem_range.mpr hvn)

/-! ### Membership and bound lemmas for the projection -/
theorem mem_enumFrom_of_mem {α : Type} :
    ∀ (l : List α) (x : α) (k : Nat), x ∈ l → ∃ i, (i, x) ∈ List.enumFrom k l := by
  intro l
  induction l with
  | nil => intro x k h; cases h
  | cons y l ih =>
    intro x k h
    rcases List.mem_cons.mp h with h1 | h1
    · exact ⟨k, by simp [List.enumFrom, h1]⟩
    · obtain ⟨i, hi⟩ := ih x (k + 1) h1
      exact ⟨i, by simp [List.enumFrom, hi]⟩

theorem snd_mem_of_mem_enumFrom {α : Type} :
    ∀ (l : List α) (x : Nat × α) (k : Nat), x ∈ List.enumFrom k l → x.2 ∈ l := by
  intro l
  induction l with
  | nil => intro x k h; cases h
  | cons y l ih =>
    intro x k h
    rcases List.mem_cons.mp h with h1 | h1
    · subst h1; simp
    · exact List.mem_cons_of_mem _ (ih x (k + 1) h1)

theorem fst_lt_of_mem_enumFrom {α : Type} :
    ∀ (l : List α) (x : Nat × α) (k : Nat), x ∈ List.enumFrom k l →
      x.1 < k + l.length := by
  intro l
  induction l with
  | nil => intro x k h; cases h
  | cons y l ih =>
    intro x k h
    rcases List.mem_cons.mp h with h1 | h1
    · subst h1; simp
    · have := ih x (k + 1) h1
      simp only [List.length_cons]
      omega

theorem mem_outEdges (p : PEdges) (a b o i : Nat)
    (hi : (i, (a, b, o)) ∈ List.enumFrom 0 p) : (i, b) ∈ outEdges p a := by
  simp only [outEdges, List.mem_reverse, List.mem_map, List.mem_filter, List.enum]
  exact ⟨(i, (a, b, o)), ⟨hi, by simp⟩, rfl⟩

theorem pedge_nbr (p : PEdges) (a b : Nat) (h : pEdgeMem p a b) :
    b ∈ neighborsDirected p a := by
  obtain ⟨o, ho⟩ := h
  obtain ⟨i, hi⟩ := mem_enumFrom_of_mem p (a, b, o) 0 ho
  have hoe := mem_outEdges p a b o i hi
  simp only [neighborsDirected, List.mem_map]
  exact ⟨(i, b), hoe, rfl⟩

theorem exists_selfloop (p : PEdges) (v : Nat) (h : pEdgeMem p v v) :
    ∃ e, firstSelfLoop p v = some e := by
  have hmem : ∃ x ∈ outEdges p v, (fun e : Nat × Nat => e.2 == v) x = true := by
    obtain ⟨o, ho⟩ := h
    obtain ⟨i, hi⟩ := mem_enumFrom_of_mem p (v, v, o) 0 ho
    exact ⟨(i, v), mem_outEdges p v v o i hi, by simp⟩
  obtain ⟨x, hx, hpx⟩ := hmem
  cases hfind : (outEdges p v).find? fun e => e.2 == v with
  | none =>
    exact absurd hpx (by simpa using List.find?_eq_none.mp hfind x hx)
  | some y => exact ⟨y.1, by simp [firstSelfLoop, hfind]⟩

theorem outEdges_fst_lt (p : PEdges) (v : Nat) (x : Nat × Nat)
    (h : x ∈ outEdges p v) : x.1 < p.length := by
  simp only [outEdges, List.mem_reverse, List.mem_map, List.mem_filter,
    List.enum] at h
  obtain ⟨y, ⟨hy, _⟩, hxy⟩ := h
  have := fst_lt_of_mem_enumFrom p y 0 hy
  rw [← hxy]
  simpa using this

theorem firstSelfLoop_lt (p : PEdges) (v e : Nat)
    (h : firstSelfLoop p v = some e) : e < p.length := by
  simp only [firstSelfLoop, Option.map_eq_some'] at h
  obtain ⟨x, hx, hex⟩ := h
  have hmem := List.mem_of_find?_eq_some hx
  rw [← hex]
  exact outEdges_fst_lt p v x hmem

theorem occ_pos_of_mem (cs : List (List Nat)) (e : Nat) (h : [e] ∈ cs) :
    0 < occCount cs e := by
  induction cs with
  | nil => cases h
  | cons c cs ih =>
    simp only [occCount, List.map_cons, List.sum_cons]
    rcases List.mem_cons.mp h with h1 | h1
    · subst h1
      simp [List.count_cons]
    · have := ih h1
      simp only [occCount] at this
      omega

theorem plainProj_mem (es : List (Nat × Nat × EdgeKind)) (a b o : Nat)
    (h : (a, b, o) ∈ plainProj es) : (a, b, EdgeKind.plain) ∈ es := by
  simp only [plainProj, List.mem_filterMap] at h
  obtain ⟨x, hx, hfx⟩ := h
  obtain ⟨i, s, t, kk⟩ := x
  by_cases hk : (kk == EdgeKind.plain) = true
  · rw [if_pos hk] at hfx
    injection hfx with hfx
    simp only [Prod.mk.injEq] at hfx
    obtain ⟨h1, h2, h3⟩ := hfx
    have hke : kk = EdgeKind.plain := by simpa using hk
    subst hke
    have hm := snd_mem_of_mem_enumFrom es (i, (s, t, EdgeKind.plain)) 0
      (by simpa [List.enum] using hx)
    rw [← h1, ← h2]
    simpa using hm
  · rw [if_neg hk] at hfx
    cases hfx

theorem wfb_edge_lt (g : Graph) (hwf : wfb g = true) (a b : Nat) (kk : EdgeKind)
    (h : (a, b, kk) ∈ g.edges) : a < g.nodes.length ∧ b < g.nodes.length := by
  have := (List.all_eq_true.mp hwf) _ h
  simpa using this

/-- `(i+1) % k ≠ i` whenever `2 ≤ k` and `i < k`. -/
theorem succ_mod_ne (k i : Nat) (hk : 2 ≤ k) (hi : i < k) : (i + 1) % k ≠ i := by
  by_cases hik : i + 1 < k
  · rw [Nat.mod_eq_of_lt hik]; omega
  · have hik' : i + 1 = k := by omega
    rw [hik', Nat.mod_self]
    omega

/-- At an exit point of the `remove_cycles` loop (a terminating
`find_cycles` call), a remaining Plain cycle is impossible: a long cycle
makes the DFS diverge, and a self-loop forces a recorded cycle with a
positive occurrence count. -/
theorem exit_no_cycle (fuel : Nat) (g : Graph) (cs : List (List Nat))
    (hwf : wfb g = true)
    (hfc : findCycles fuel g.nodes.length (plainProj g.edges) = some cs)
    (hcyc : ECycleP (plainProj g.edges)) :
    cs ≠ [] ∧ ∃ e, e ∈ (List.range (plainProj g.edges).length).filter
      fun i => Nat.blt 0 (occCount cs i) := by
  obtain ⟨k, c, hk, hinj, hedge⟩ := hcyc
  have hsrc_lt : ∀ i, i < k → c i < g.nodes.length := by
    intro i hi
    obtain ⟨o, ho⟩ := hedge i hi
    exact (wfb_edge_lt g hwf _ _ _ (plainProj_mem g.edges _ _ _ ho)).1
  by_cases hk2 : 2 ≤ k
  · exfalso
    have hstep : ∀ v ∈ (List.range k).map c, ∃ w, w ∈ (List.range k).map c ∧
        w ≠ v ∧ w ∈ neighborsDirected (plainProj g.edges) v := by
      intro v hv
      simp only [List.mem_map, List.mem_range] at hv
      obtain ⟨i, hik, hiv⟩ := hv
      refine ⟨c ((i + 1) % k), ?_, ?_, ?_⟩
      · simp only [List.mem_map, List.mem_range]
        exact ⟨(i + 1) % k, Nat.mod_lt _ (by omega), rfl⟩
      · intro hww
        rw [← hiv] at hww
        exact succ_mod_ne k i hk2 hik
          (hinj _ (Nat.mod_lt _ (by omega)) _ hik hww)
      · rw [← hiv]
        exact pedge_nbr _ _ _ (hedge i hik)
    have := findCycles_none_of_trap fuel g.nodes.length (plainProj g.edges)
      ((List.range k).map c) hstep (c 0)
      (by simp only [List.mem_map, List.mem_range]; exact ⟨0, by omega, rfl⟩)
      (hsrc_lt 0 (by omega))
    rw [this] at hfc
    cases hfc
  · have hk1 : k = 1 := by omega
    subst hk1
    have hself : pEdgeMem (plainProj g.edges) (c 0) (c 0) := by
      simpa using hedge 0 (by omega)
    obtain ⟨e, hsl⟩ := exists_selfloop _ _ hself
    have hecs := findCycles_selfloop fuel g.nodes.length (plainProj g.edges)
      (c 0) e hsl (hsrc_lt 0 (by omega)) cs hfc
    refine ⟨fun hnil => by simp [hnil] at hecs, e, ?_⟩
    simp only [List.mem_filter, List.mem_range]
    refine ⟨firstSelfLoop_lt _ _ _ hsl, ?_⟩
    have := occ_pos_of_mem cs e hecs
    simpa [Nat.blt_eq] using this

/-- Boxing one edge keeps the graph well-formed. -/
theorem wfb_box (g : Graph) (hwf : wfb g = true) (orig : Nat)
    (es' : List (Nat × Nat × EdgeKind)) (h : boxEdge g.edges orig = some es') :
    wfb ⟨g.nodes, es'⟩ = true := by
  simp only [boxEdge] at h
  cases hidx : g.edges[orig]? with
  | none => rw [hidx] at h; cases h
  | some x =>
    obtain ⟨s, t, kk⟩ := x
    rw [hidx] at h
    injection h with h
    subst h
    have hmem : (s, t, kk) ∈ g.edges := by
      exact List.getElem?_mem hidx
    rw [wfb, List.all_eq_true]
    intro x hx
    rcases List.mem_or_eq_of_mem_set hx with h1 | h1
    · exact (List.all_eq_true.mp hwf) _ h1
    · subst h1
      have := wfb_edge_lt g hwf s t kk hmem
      simp [this.1, this.2]

/-! ### Main theorems about `remove_cycles` -/
theorem removeCyclesAux_acyclic (fuel : Nat) :
    ∀ iters g g', removeCyclesAux fuel iters g = some g' → wfb g = true →
      ¬ ECycleP (plainProj g'.edges) := by
  intro iters
  induction iters with
  | zero => intro g g' h _; simp [removeCyclesAux] at h
  | succ iters ih =>
    intro g g' h hwf
    simp only [removeCyclesAux] at h
    cases hfc : findCycles fuel g.nodes.length (plainProj g.edges) with
    | none => simp only [hfc] at h; cases h
    | some cs =>
      simp only [hfc] at h
      by_cases hcs : cs.isEmpty = true
      · rw [if_pos hcs] at h
        injection h with h
        subst h
        intro hcyc
        obtain ⟨hne, _⟩ := exit_no_cycle fuel g cs hwf hfc hcyc
        exact hne (List.isEmpty_iff.mp hcs)
      · rw [if_neg hcs] at h
        by_cases hes : ((List.range (plainProj g.edges).length).filter
            fun i => Nat.blt 0 (occCount cs i)).isEmpty = true
        · rw [if_pos hes] at h
          injection h with h
          subst h
          intro hcyc
          obtain ⟨_, e, he⟩ := exit_no_cycle fuel g cs hwf hfc hcyc
          rw [List.isEmpty_iff.mp hes] at he
          cases he
        · rw [if_neg hes] at h
          cases hhead : (sortByOcc cs ((List.range (plainProj g.edges).length).filter
              fun i => Nat.blt 0 (occCount cs i))).head? with
          | none => simp only [hhead] at h; cases h
          | some chosenP =>
            simp only [hhead] at h
            cases hp : (plainProj g.edges)[chosenP]? with
            | none => simp only [hp] at h; cases h
            | some x =>
              obtain ⟨es, et, orig⟩ := x
              simp only [hp] at h
              cases hbox : boxEdge g.edges orig with
              | none => simp only [hbox] at h; cases h
              | some es' =>
                simp only [hbox] at h
                exact ih _ _ h (wfb_box g hwf orig es' hbox)

/-- First exit of the `remove_cycles` loop: no cycles found. -/
theorem rca_exit_no_cycles (fuel iters : Nat) (g : Graph) (cs : List (List Nat))
    (hfc : findCycles fuel g.nodes.length (plainProj g.edges) = some cs)
    (hcs : cs.isEmpty = true) : removeCyclesAux fuel (iters + 1) g = some g := by
  simp only [removeCyclesAux, hfc]
  rw [if_pos hcs]

/-- Second exit of the `remove_cycles` loop: no edge with a positive
occurrence count. -/
theorem rca_exit_no_edges (fuel iters : Nat) (g : Graph) (cs : List (List Nat))
    (hfc : findCycles fuel g.nodes.length (plainProj g.edges) = some cs)
    (hcs : ¬cs.isEmpty = true)
    (hes : ((List.range (plainProj g.edges).length).filter
      fun i => Nat.blt 0 (occCount cs i)).isEmpty = true) :
    removeCyclesAux fuel (iters + 1) g = some g := by
  simp only [removeCyclesAux, hfc]
  rw [if_neg hcs, if_pos hes]

theorem removeCyclesAux_idem (fuel : Nat) :
    ∀ iters g g', removeCyclesAux fuel iters g = some g' →
      removeCyclesAux fuel 1024 g' = some g' := by
  intro iters
  induction iters with
  | zero => intro g g' h; simp [removeCyclesAux] at h
  | succ iters ih =>
    intro g g' h
    simp only [removeCyclesAux] at h
    cases hfc : findCycles fuel g.nodes.length (plainProj g.edges) with
    | none => simp only [hfc] at h; cases h
    | some cs =>
      simp only [hfc] at h
      by_cases hcs : cs.isEmpty = true
      · rw [if_pos hcs] at h
        injection h with h
        subst h
        exact rca_exit_no_cycles fuel 1023 g cs hfc hcs
      · rw [if_neg hcs] at h
        by_cases hes : ((List.range (plainProj g.edges).length).filter
            fun i => Nat.blt 0 (occCount cs i)).isEmpty = true
        · rw [if_pos hes] at h
          injection h with h
          subst h
          exact rca_exit_no_edges fuel 1023 g cs hfc hcs hes
        · rw [if_neg hes] at h
          cases hhead : (sortByOcc cs ((List.range (plainProj g.edges).length).filter
              fun i => Nat.blt 0 (occCount cs i))).head? with
          | none => simp only [hhead] at h; cases h
          | some chosenP =>
            simp only [hhead] at h
            cases hp : (plainProj g.edges)[chosenP]? with
            | none => simp only [hp] at h; cases h
            | some x =>
              obtain ⟨es, et, orig⟩ := x
              simp only [hp] at h
              cases hbox : boxEdge g.edges orig with
              | none => simp only [hbox] at h; cases h
              | some es' =>
                simp only [hbox] at h
                exact ih _ _ h

/-- Claim C1: for every reference graph, whenever
`DependencyAnalyzer::remove_cycles` returns, the subgraph restricted to
Plain-kind edges contains no directed cycle, including no self-loop
edge that is still of Plain kind. -/
theorem remove_cycles_plain_acyclic (fuel : Nat) (g g' : Graph)
    (hwf : wfb g = true) (h : removeCycles fuel g = some g') :
    ¬ ECycleP (plainProj g'.edges) :=
  removeCyclesAux_acyclic fuel 1024 g g' h hwf

/-- Witness for C1 at the self-loop test graph: the hypotheses are
satisfiable and the conclusion holds at the computed output. -/
theorem remove_cycles_plain_acyclic_witness :
    wfb selfLoopG = true ∧ removeCycles 10 selfLoopG = some selfLoopBoxedG ∧
      ¬ ECycleP (plainProj selfLoopBoxedG.edges) :=
  ⟨by decide, by decide,
    remove_cycles_plain_acyclic 10 selfLoopG selfLoopBoxedG (by decide) (by decide)⟩

/-- Claim C9: `remove_cycles` is idempotent — a second run on the output
of a terminating first run exits at once, changing nothing. -/
theorem remove_cycles_idempotent (fuel : Nat) (g g' : Graph)
    (h : removeCycles fuel g = some g') : removeCycles fuel g' = some g' :=
  removeCyclesAux_idem fuel 1024 g g' h

/-- Witness for C9 at the self-loop test graph. -/
theorem remove_cycles_idempotent_witness :
    removeCycles 10 selfLoopG = some selfLoopBoxedG ∧
      removeCycles 10 selfLoopBoxedG = some selfLoopBoxedG :=
  ⟨by decide, remove_cycles_idempotent 10 selfLoopG selfLoopBoxedG (by decide)⟩

/-- Claim C2 (failing input): on the two-node all-Plain cycle
`0 → 1 → 0`, the cycle-removal loop does not terminate: node 1 is never
popped because its neighbour 0 stays OnStack, so `process_dfs_tree`
re-records the same cycle forever.  `none` for every DFS iteration
budget and every outer budget is non-termination of the source. -/
theorem remove_cycles_diverges_two_cycle :
    ∀ fuel iters, removeCyclesAux fuel iters twoCycleG = none := by
  intro fuel iters
  cases iters with
  | zero => rfl
  | succ iters =>
    have h := findCycles_none_of_trap fuel twoCycleG.nodes.length
      (plainProj twoCycleG.edges) [0, 1] (by decide) 0 (by decide) (by decide)
    simp only [removeCyclesAux, h]

/-- Claim C3 (failing input): on the three-node all-Plain cycle of the
repo's own `remove_larger_cycle` test, `remove_cycles` never returns, so
no edge is ever reclassified to Boxed. -/
theorem remove_cycles_diverges_three_cycle :
    ∀ fuel iters, removeCyclesAux fuel iters threeCycleG = none := by
  intro fuel iters
  cases iters with
  | zero => rfl
  | succ iters =>
    have h := findCycles_none_of_trap fuel threeCycleG.nodes.length
      (plainProj threeCycleG.edges) [0, 1, 2] (by decide) 0 (by decide) (by decide)
    simp only [removeCyclesAux, h]

theorem InvL_mono (ids ids' : List VersionedUrl) (st : BuildState)
    (hsub : ∀ u ∈ ids, u ∈ ids') (h : InvL ids st) : InvL ids' st :=
  ⟨h.1, h.2.1, h.2.2.1, fun w hw => hsub _ (h.2.2.2 w hw)⟩

theorem addLink_inv (ids : List VersionedUrl) (st : BuildState)
    (src : Nat) (tgt : VersionedUrl) (k : EdgeKind) (h : InvL ids st) :
    InvL ids (addLink st src tgt k) := by
  obtain ⟨h1, h2, h3, h4⟩ := h
  unfold addLink
  cases hget : lookupGet st.lookup tgt with
  | some index => exact ⟨h1, h2, h3, h4⟩
  | none =>
    refine ⟨?_, ?_, ?_, ?_⟩
    · intro x hx
      simp only [List.length_append, List.length_singleton]
      rcases List.mem_append.mp hx with hx | hx
      · have := h1 x hx; omega
      · simp only [List.mem_singleton] at hx
        subst hx
        simp
    · intro x hx w hw
      rcases List.mem_append.mp hx with hx | hx
      · rw [List.getElem?_append_left (h1 x hx)] at hw
        exact h2 x hx w hw
      · simp only [List.mem_singleton] at hx
        subst hx
        simp only [List.getElem?_concat_length] at hw
        cases hw
    · intro x hx y hy hxy
      rcases List.mem_append.mp hx with hx | hx <;>
        rcases List.mem_append.mp hy with hy | hy
      · exact h3 x hx y hy hxy
      · simp only [List.mem_singleton] at hy
        subst hy
        have := h1 x hx
        simp only at hxy
        omega
      · simp only [List.mem_singleton] at hx
        subst hx
        have := h1 y hy
        simp only at hxy
        omega
      · simp only [List.mem_singleton] at hx hy
        subst hx; subst hy; rfl
    · intro w hw
      rcases List.mem_append.mp hw with hw | hw
      · exact h4 w hw
      · simp only [List.mem_singleton] at hw
        cases hw

theorem addLink_hasid (st : BuildState) (src : Nat) (tgt u : VersionedUrl)
    (k : EdgeKind) (h : HasId st u) : HasId (addLink st src tgt k) u := by
  obtain ⟨i, w, hi, hw⟩ := h
  unfold addLink
  cases hget : lookupGet st.lookup tgt with
  | some index => exact ⟨i, w, hi, hw⟩
  | none =>
    refine ⟨i, w, ?_, hw⟩
    have hilen : i < st.nodes.length := by
      by_contra hcon
      rw [List.getElem?_eq_none (by omega)] at hi
      cases hi
    simpa [List.getElem?_append_left hilen] using hi

theorem foldl_pres {α : Type} (P : BuildState → Prop) (f : BuildState → α → BuildState)
    (hf : ∀ st a, P st → P (f st a)) :
    ∀ (l : List α) (st : BuildState), P st → P (l.foldl f st) := by
  intro l
  induction l with
  | nil => intro st h; simpa using h
  | cons a l ih => intro st h; exact ih (f st a) (hf st a h)

mutual

theorem opv_pres (P : BuildState → Prop) (hP : AddLinkClosed P)
    (st : BuildState) (idx : Nat) (v : PropertyValues) (k : Option EdgeKind)
    (h : P st) : P (outgoingPropertyValue st idx v k) := by
  cases v with
  | dataTypeReference url =>
    simp only [outgoingPropertyValue]
    exact hP st idx url _ h
  | propertyTypeObject props =>
    simp only [outgoingPropertyValue]
    refine foldl_pres P _ ?_ props st h
    intro st x hx
    cases x.2 with
    | value url => simpa using hP st idx url _ hx
    | arrayOf url => simpa using hP st idx url _ hx
  | arrayOfPropertyValues oneOf =>
    simp only [outgoingPropertyValue]
    exact opvl_pres P hP st idx oneOf h

theorem opvl_pres (P : BuildState → Prop) (hP : AddLinkClosed P)
    (st : BuildState) (idx : Nat) (vs : List PropertyValues)
    (h : P st) : P (outgoingPropertyValueList st idx vs) := by
  cases vs with
  | nil => simpa [outgoingPropertyValueList] using h
  | cons v vs =>
    simp only [outgoingPropertyValueList]
    exact opvl_pres P hP _ idx vs (opv_pres P hP st idx v _ h)

end

theorem outgoing_pres (P : BuildState → Prop) (hP : AddLinkClosed P)
    (st : BuildState) (idx : Nat) (ty : AnyType) (h : P st) :
    P (outgoing st idx ty) := by
  cases ty with
  | data d => simpa [outgoing] using h
  | property p =>
    simp only [outgoing, outgoingPropertyType]
    exact foldl_pres P _ (fun st v hv => opv_pres P hP st idx v none hv) p.oneOf st h
  | entity e =>
    simp only [outgoing, outgoingEntityType]
    refine foldl_pres P _ ?_ (e.properties.map Prod.snd) st h
    intro st x hx
    cases x with
    | value url => simpa using hP st idx url _ hx
    | arrayOf url => simpa using hP st idx url _ hx

theorem lookupGet_mem (l : Lookup) (u : VersionedUrl) (i : Nat)
    (h : lookupGet l u = some i) : (u, i) ∈ l := by
  simp only [lookupGet, Option.map_eq_some'] at h
  obtain ⟨x, hx, hxi⟩ := h
  have hmem := List.mem_of_find?_eq_some hx
  have hp := List.find?_some hx
  simp only [decide_eq_true_eq] at hp
  have hxu : x = (u, i) := by
    obtain ⟨a, b⟩ := x
    simp only at hp hxi
    simp [hp, hxi]
  rw [← hxu]
  exact hmem

theorem nodeFor_id (ty : AnyType) : (nodeFor ty).id = AnyType.id ty := by
  cases ty <;> rfl

theorem insertType_inv (ids : List VersionedUrl) (st : BuildState) (ty : AnyType)
    (h : InvL ids st) : InvL (ids ++ [AnyType.id ty]) (insertType st ty) := by
  have hcl : AddLinkClosed (InvL (ids ++ [AnyType.id ty])) :=
    fun st src tgt k hp => addLink_inv _ st src tgt k hp
  obtain ⟨h1, h2, h3, h4⟩ := h
  unfold insertType
  cases hget : lookupGet st.lookup (AnyType.id ty) with
  | some index =>
    have hmem := lookupGet_mem _ _ _ hget
    have hidx : index < st.nodes.length := h1 _ hmem
    refine outgoing_pres _ hcl _ index ty ⟨?_, ?_, ?_, ?_⟩
    · intro x hx
      simpa [List.length_set] using h1 x hx
    · intro x hx w hw
      simp only at hw
      by_cases hxi : index = x.2
      · rw [← hxi, List.getElem?_set_self hidx] at hw
        injection hw with hw
        injection hw with hw
        rw [← hw, nodeFor_id]
        exact h3 (AnyType.id ty, index) hmem x hx hxi
      · rw [List.getElem?_set_ne hxi] at hw
        exact h2 x hx w hw
    · exact h3
    · intro w hw
      simp only at hw
      rcases List.mem_or_eq_of_mem_set hw with hw | hw
      · exact List.mem_append_left _ (h4 w hw)
      · injection hw with hw
        rw [hw, nodeFor_id]
        simp
  | none =>
    refine outgoing_pres _ hcl _ st.nodes.length ty ⟨?_, ?_, ?_, ?_⟩
    · intro x hx
      simp only [List.length_append, List.length_singleton]
      rcases List.mem_append.mp hx with hx | hx
      · have := h1 x hx; omega
      · simp only [List.mem_singleton] at hx
        subst hx
        simp
    · intro x hx w hw
      simp only at hw
      rcases List.mem_append.mp hx with hx | hx
      · rw [List.getElem?_append_left (h1 x hx)] at hw
        exact h2 x hx w hw
      · simp only [List.mem_singleton] at hx
        subst hx
        simp only [List.getElem?_concat_length] at hw
        injection hw with hw
        injection hw with hw
        rw [← hw, nodeFor_id]
    · intro x hx y hy hxy
      rcases List.mem_append.mp hx with hx | hx <;>
        rcases List.mem_append.mp hy with hy | hy
      · exact h3 x hx y hy hxy
      · simp only [List.mem_singleton] at hy
        subst hy
        have := h1 x hx
        simp only at hxy
        omega
      · simp only [List.mem_singleton] at hx
        subst hx
        have := h1 y hy
        simp only at hxy
        omega
      · simp only [List.mem_singleton] at hx hy
        subst hx; subst hy; rfl
    · intro w hw
      simp only at hw
      rcases List.mem_append.mp hw with hw | hw
      · exact List.mem_append_left _ (h4 w hw)
      · simp only [List.mem_singleton] at hw
        injection hw with hw
        rw [hw, nodeFor_id]
        simp

theorem insertType_hasid (ids : List VersionedUrl) (st : BuildState) (ty : AnyType)
    (h : InvL ids st) : HasId (insertType st ty) (AnyType.id ty) := by
  have hcl : AddLinkClosed (HasId · (AnyType.id ty)) :=
    fun st src tgt k hp => addLink_hasid st src tgt _ k hp
  unfold insertType
  cases hget : lookupGet st.lookup (AnyType.id ty) with
  | some index =>
    have hidx : index < st.nodes.length := h.1 _ (lookupGet_mem _ _ _ hget)
    refine outgoing_pres _ hcl _ index ty ?_
    exact ⟨index, nodeFor ty, by simp [List.getElem?_set_self hidx], nodeFor_id ty⟩
  | none =>
    refine outgoing_pres _ hcl _ st.nodes.length ty ?_
    exact ⟨st.nodes.length, nodeFor ty, by simp [List.getElem?_concat_length],
      nodeFor_id ty⟩

theorem insertType_hasid_pres (ids : List VersionedUrl) (st : BuildState)
    (ty : AnyType) (u : VersionedUrl) (h : InvL ids st) (hu : HasId st u) :
    HasId (insertType st ty) u := by
  have hcl : AddLinkClosed (HasId · u) :=
    fun st src tgt k hp => addLink_hasid st src tgt _ k hp
  obtain ⟨i, w, hiw, hid⟩ := hu
  by_cases hui : u = AnyType.id ty
  · rw [hui]
    exact insertType_hasid ids st ty h
  · unfold insertType
    cases hget : lookupGet st.lookup (AnyType.id ty) with
    | some index =>
      have hmem := lookupGet_mem _ _ _ hget
      refine outgoing_pres _ hcl _ index ty ?_
      by_cases hix : index = i
      · exfalso
        rw [hix] at hmem
        have := h.2.1 _ hmem w hiw
        rw [this] at hid
        exact hui hid.symm
      · exact ⟨i, w, by simpa [List.getElem?_set_ne hix] using hiw, hid⟩
    | none =>
      refine outgoing_pres _ hcl _ st.nodes.length ty ?_
      have hilen : i < st.nodes.length := by
        by_contra hcon
        rw [List.getElem?_eq_none (by omega)] at hiw
        cases hiw
      exact ⟨i, w, by simpa [List.getElem?_append_left hilen] using hiw, hid⟩

theorem foldl_insert_inv :
    ∀ (types : List AnyType) (ids : List VersionedUrl) (st : BuildState),
      InvL ids st →
      InvL (ids ++ types.map AnyType.id) (types.foldl insertType st) ∧
      (∀ u, HasId st u → HasId (types.foldl insertType st) u) ∧
      (∀ u ∈ types.map AnyType.id, HasId (types.foldl insertType st) u) := by
  intro types
  induction types with
  | nil =>
    intro ids st h
    exact ⟨by simpa using h, fun u hu => by simpa using hu, by simp⟩
  | cons ty tys ih =>
    intro ids st h
    simp only [List.foldl_cons, List.map_cons]
    have hst' := insertType_inv ids st ty h
    obtain ⟨ha, hb, hc⟩ := ih (ids ++ [AnyType.id ty]) (insertType st ty) hst'
    refine ⟨?_, ?_, ?_⟩
    · refine InvL_mono _ _ _ ?_ ha
      intro u hu
      simp only [List.mem_append, List.mem_singleton, List.mem_cons] at hu ⊢
      tauto
    · intro u hu
      exact hb u (insertType_hasid_pres ids st ty u h hu)
    · intro u hu
      rcases List.mem_cons.mp hu with hu | hu
      · subst hu
        exact hb _ (insertType_hasid ids st ty h)
      · exact hc u hu

theorem removeCyclesAux_nodes (fuel : Nat) :
    ∀ iters g g', removeCyclesAux fuel iters g = some g' → g'.nodes = g.nodes := by
  intro iters
  induction iters with
  | zero => intro g g' h; simp [removeCyclesAux] at h
  | succ iters ih =>
    intro g g' h
    simp only [removeCyclesAux] at h
    cases hfc : findCycles fuel g.nodes.length (plainProj g.edges) with
    | none => simp only [hfc] at h; cases h
    | some cs =>
      simp only [hfc] at h
      by_cases hcs : cs.isEmpty = true
      · rw [if_pos hcs] at h
        injection h with h
        subst h
        rfl
      · rw [if_neg hcs] at h
        by_cases hes : ((List.range (plainProj g.edges).length).filter
            fun i => Nat.blt 0 (occCount cs i)).isEmpty = true
        · rw [if_pos hes] at h
          injection h with h
          subst h
          rfl
        · rw [if_neg hes] at h
          cases hhead : (sortByOcc cs ((List.range (plainProj g.edges).length).filter
              fun i => Nat.blt 0 (occCount cs i))).head? with
          | none => simp only [hhead] at h; cases h
          | some chosenP =>
            simp only [hhead] at h
            cases hp : (plainProj g.edges)[chosenP]? with
            | none => simp only [hp] at h; cases h
            | some x =>
              obtain ⟨es, et, orig⟩ := x
              simp only [hp] at h
              cases hbox : boxEdge g.edges orig with
              | none => simp only [hbox] at h; cases h
              | some es' =>
                simp only [hbox] at h
                exact ih ⟨g.nodes, es'⟩ g' h

/-- Claim C8 (amended): a graph node is created for a dangling reference
target during construction and a non-fatal diagnostic is logged, but the
final `filter_map` in `DependencyAnalyzer::new` drops every node that
has no schema attached, together with all its incident edges: the node
set of the resulting graph is exactly the set of ids of the input types,
so a dangling target and its edges are absent from the resulting graph. -/
theorem dependency_analyzer_new_nodes (fuel : Nat) (types : List AnyType)
    (a : DependencyAnalyzer) (h : DependencyAnalyzer.new fuel types = some a) :
    (∀ w ∈ a.graph.nodes, w.id ∈ types.map AnyType.id) ∧
    (∀ u ∈ types.map AnyType.id, ∃ w, w ∈ a.graph.nodes ∧ w.id = u) := by
  simp only [DependencyAnalyzer.new, Option.map_eq_some'] at h
  obtain ⟨g, hg, ha⟩ := h
  have hnodes : a.graph.nodes = (filterGraph (buildTemp types)).nodes := by
    rw [← ha]
    exact removeCyclesAux_nodes fuel 1024 _ g hg
  have hinv := foldl_insert_inv types [] ⟨[], [], []⟩
    ⟨by simp, by simp, by simp, by simp⟩
  have hmemiff : ∀ w : Node,
      w ∈ (filterGraph (buildTemp types)).nodes ↔ some w ∈ (buildTemp types).nodes := by
    intro w
    simp [filterGraph, List.mem_filterMap]
  constructor
  · intro w hw
    rw [hnodes] at hw
    have := hinv.1.2.2.2 w ((hmemiff w).mp hw)
    simpa [buildTemp] using this
  · intro u hu
    obtain ⟨i, w, hiw, hid⟩ := hinv.2.2 u (by simpa using hu)
    refine ⟨w, ?_, hid⟩
    rw [hnodes]
    refine (hmemiff w).mpr ?_
    have : some w ∈ (types.foldl insertType ⟨[], [], []⟩).nodes :=
      List.getElem?_mem hiw
    simpa [buildTemp] using this

/-- Claim C8 (counterexample): for the dangling reference `urlP → urlD`,
the claim says the resulting graph still contains a node for `urlD` and
the edge to it; the code's final graph contains only the node of the
defined property type and no edges at all. -/
theorem dangling_node_dropped :
    DependencyAnalyzer.new 100 [danglingProp] = some danglingResult ∧
    danglingResult.graph.nodes.map Node.id = [urlP] ∧
    danglingResult.graph.edges = [] := by decide

/-- Witness for the amended C8 at the dangling example. -/
theorem dependency_analyzer_new_nodes_witness :
    DependencyAnalyzer.new 100 [danglingProp] = some danglingResult ∧
    ((∀ w ∈ danglingResult.graph.nodes, w.id ∈ [danglingProp].map AnyType.id) ∧
      (∀ u ∈ [danglingProp].map AnyType.id, ∃ w, w ∈ danglingResult.graph.nodes ∧
        w.id = u)) :=
  ⟨by decide,
    dependency_analyzer_new_nodes 100 [danglingProp] danglingResult (by decide)⟩

/-- Claim C4 (counterexample): with entity `uE1` inheriting the missing
`uM1` and the unaffected entity `uE2` in the same run, the claim says
the run still produces a best-effort unified map containing `uE2`; the
code propagates the accumulated `stack()` failure through `?` and the
whole run returns the error — no map of any kind is produced. -/
theorem missing_parent_aborts_run :
    UnificationAnalyzer.run 5 anaMissing =
      some (Except.error [AnalysisError.incompleteGraph]) ∧
    (UnificationAnalyzer.run 5 anaMissing).map Except.isOk = some false :=
  ⟨rfl, rfl⟩

/-- Claim C4 (amended): a fetch miss does not abort the pass — every
missing parent across the whole run contributes its own accumulated
`IncompleteGraph` error — but the run then fails as a whole with the
accumulated error set (via the `?` on `self.stack()`), and no
best-effort unified-entity map is produced. -/
theorem missing_parent_errors_accumulate :
    UnificationAnalyzer.run 5 anaMissingTwo =
      some (Except.error
        [AnalysisError.incompleteGraph, AnalysisError.incompleteGraph]) := rfl

/-- Claim C5: a genuine cycle among the declared `inheritsFrom`
references — mutual inheritance of two entities, or an entity
inheriting itself — terminates and is reported as
`AnalysisError::UnificationCycle` (from the failed toposort), not
looped on forever and not silently broken. -/
theorem unification_cycle_reported (a b : VersionedUrl) (ta tb : String)
    (hab : a ≠ b) (ha : a ≠ LINK) (hb : b ≠ LINK) :
    UnificationAnalyzer.run 4 (UnificationAnalyzer.new
      [AnyType.entity ⟨a, ta, [], [], [b]⟩, AnyType.entity ⟨b, tb, [], [], [a]⟩]) =
      some (Except.error [AnalysisError.unificationCycle]) ∧
    UnificationAnalyzer.run 2 (UnificationAnalyzer.new
      [AnyType.entity ⟨a, ta, [], [], [a]⟩]) =
      some (Except.error [AnalysisError.unificationCycle]) := by
  have hba : b ≠ a := Ne.symm hab
  constructor
  · simp [UnificationAnalyzer.run, UnificationAnalyzer.stack, UnificationAnalyzer.new,
      stackLoop, processParents, fetchOne, cacheGet, lookupGet, nodeEntry, toposort,
      kahnLoop, List.find?, AnyType.id, hab, hba, ha, hb]
    rfl
  · simp [UnificationAnalyzer.run, UnificationAnalyzer.stack, UnificationAnalyzer.new,
      stackLoop, processParents, fetchOne, cacheGet, lookupGet, nodeEntry, toposort,
      kahnLoop, List.find?, AnyType.id, ha]
    rfl

/-- Witness for C5 at concrete ids. -/
theorem unification_cycle_reported_witness :
    uE1 ≠ uE2 ∧ uE1 ≠ LINK ∧ uE2 ≠ LINK ∧
    (UnificationAnalyzer.run 4 (UnificationAnalyzer.new
      [AnyType.entity ⟨uE1, "A", [], [], [uE2]⟩,
       AnyType.entity ⟨uE2, "B", [], [], [uE1]⟩]) =
      some (Except.error [AnalysisError.unificationCycle]) ∧
    UnificationAnalyzer.run 2 (UnificationAnalyzer.new
      [AnyType.entity ⟨uE1, "A", [], [], [uE1]⟩]) =
      some (Except.error [AnalysisError.unificationCycle])) :=
  ⟨by decide, by decide, by decide,
    unification_cycle_reported uE1 uE2 "A" "B" (by decide) (by decide) (by decide)⟩

/-- Claim C6 (evaluation at the failing input): the stack pass does skip
the Link parent — it is never fetched (no `IncompleteGraph`, `missing`
stays empty) and no inheritance edge is added — but nothing ever records
`is_link`: the `Facts::links` set is never written anywhere in
`unify.rs`, and `unify_entity` then calls `entity_or_panic` on the
deliberately never-fetched Link id, which panics (`none`), so the run
never returns at all for a Link-inheriting entity. -/
theorem link_inheritance_panics :
    UnificationAnalyzer.stack 4 anaLink = some (anaLink, Except.ok [uE1]) ∧
    anaLink.facts.links = [] ∧
    UnificationAnalyzer.run 4 anaLink = none :=
  ⟨rfl, rfl, rfl⟩

theorem append_digit_ne (s : String) : s ++ "0" ≠ s ++ "1" := by
  intro h
  have h2 : (s ++ "0").data = (s ++ "1").data := congrArg String.data h
  simp only [String.data_append] at h2
  have h3 := List.append_cancel_left h2
  simp at h3

/-- Claim C7 (counterexample): two distinct ids that produce the same
first-pass name "Foo" do NOT end up with two distinct names — both keep
`name.value = "Foo"`, and only the separate `Location::alias` field gets
the positional suffix; moreover the suffix assignment follows the input
order of the batch, so reversing the batch swaps which id gets "Foo0"
and which gets "Foo1". -/
theorem collision_keeps_equal_names :
    (((resolverXY.locations [uX, uY]).bind fun o => findLoc o uX).map
        fun l => (l.name.value, l.alias?)) = some ("Foo", some "Foo0") ∧
    (((resolverXY.locations [uX, uY]).bind fun o => findLoc o uY).map
        fun l => (l.name.value, l.alias?)) = some ("Foo", some "Foo1") ∧
    (((resolverXY.locations [uY, uX]).bind fun o => findLoc o uX).map
        fun l => (l.name.value, l.alias?)) = some ("Foo", some "Foo1") := by decide

/-- Claim C7 (amended): in a batch with a first-pass name collision,
every member of the collision group keeps the same primary name; each
member's `Location::alias` is set to the name suffixed with the member's
position within the group, positions following the input order of the
batch, so the aliases (not the names) are pairwise distinct — and the
assignment depends on the order of the input batch: swapping two
colliding ids swaps their alias suffixes. -/
theorem name_collision_keeps_name_sets_alias (x y : VersionedUrl) (t : String)
    (hxy : x ≠ y) (hbase : x.base ≠ y.base)
    (hpx : urlIntoParts x.base = none) (hpy : urlIntoParts y.base = none) :
    (((twoTitleResolver x y t).locations [x, y]).bind fun o => findLoc o x).map
        (fun l => (l.name.value, l.alias?)) =
      some (toPascalCase t, some (toPascalCase t ++ "0")) ∧
    (((twoTitleResolver x y t).locations [x, y]).bind fun o => findLoc o y).map
        (fun l => (l.name.value, l.alias?)) =
      some (toPascalCase t, some (toPascalCase t ++ "1")) ∧
    toPascalCase t ++ "0" ≠ toPascalCase t ++ "1" ∧
    (((twoTitleResolver x y t).locations [y, x]).bind fun o => findLoc o x).map
        (fun l => l.alias?) = some (some (toPascalCase t ++ "1")) := by
  have hyx : y ≠ x := Ne.symm hxy
  have hbase' : y.base ≠ x.base := Ne.symm hbase
  refine ⟨?_, ?_, append_digit_ne _, ?_⟩ <;>
    simp [twoTitleResolver, NameResolver.locations, NameResolver.location,
      determineName, firstPassName, otherVersionsOfUrl, cacheGet, findLoc,
      AnyType.id, AnyType.title, List.find?, List.mapM, List.mapM.loop,
      List.filter, List.foldl, List.enum, List.enumFrom, insertVersion,
      hxy, hyx, hbase, hbase', hpx, hpy] <;> rfl

/-- Witness for the amended C7 at the concrete colliding pair. -/
theorem name_collision_witness :
    uX ≠ uY ∧ uX.base ≠ uY.base ∧ urlIntoParts uX.base = none ∧
      urlIntoParts uY.base = none ∧
    ((((twoTitleResolver uX uY "Foo").locations [uX, uY]).bind
          fun o => findLoc o uX).map (fun l => (l.name.value, l.alias?)) =
        some (toPascalCase "Foo", some (toPascalCase "Foo" ++ "0")) ∧
      (((twoTitleResolver uX uY "Foo").locations [uX, uY]).bind
          fun o => findLoc o uY).map (fun l => (l.name.value, l.alias?)) =
        some (toPascalCase "Foo", some (toPascalCase "Foo" ++ "1")) ∧
      toPascalCase "Foo" ++ "0" ≠ toPascalCase "Foo" ++ "1" ∧
      (((twoTitleResolver uX uY "Foo").locations [uY, uX]).bind
          fun o => findLoc o uX).map (fun l => l.alias?) =
        some (some (toPascalCase "Foo" ++ "1"))) :=
  ⟨by decide, by decide, by decide, by decide,
    name_collision_keeps_name_sets_alias uX uY "Foo"
      (by decide) (by decide) (by decide) (by decide)⟩

/-! ### Version handling (`determine_name`) -/
theorem chain'_insertVersion (x : Nat × AnyType) :
    ∀ l, List.Chain' (fun a b : Nat × AnyType => a.1 ≤ b.1) l →
      List.Chain' (fun a b : Nat × AnyType => a.1 ≤ b.1) (insertVersion x l) := by
  intro l
  induction l with
  | nil => intro _; simp [insertVersion]
  | cons y ys ih =>
    intro h
    unfold insertVersion
    by_cases hxy : x.1 ≤ y.1
    · rw [if_pos hxy]
      exact List.chain'_cons.mpr ⟨hxy, h⟩
    · rw [if_neg hxy]
      have hyx : y.1 ≤ x.1 := by omega
      have hys := h.tail
      refine List.chain'_cons'.mpr ⟨?_, ih hys⟩
      intro z hz
      cases ys with
      | nil =>
        simp [insertVersion] at hz
        subst hz
        exact hyx
      | cons w ws =>
        unfold insertVersion at hz
        by_cases hxw : x.1 ≤ w.1
        · rw [if_pos hxw] at hz
          simp at hz
          subst hz
          exact hyx
        · rw [if_neg hxw] at hz
          simp at hz
          subst hz
          exact (List.chain'_cons.mp h).1

theorem chain'_last_max :
    ∀ l, List.Chain' (fun a b : Nat × AnyType => a.1 ≤ b.1) l →
      ∀ m, l.getLast? = some m → ∀ p ∈ l, p.1 ≤ m.1 := by
  intro l
  induction l with
  | nil => intro _ m hm; cases hm
  | cons y ys ih =>
    intro h m hm p hp
    cases ys with
    | nil =>
      simp at hm
      rcases List.mem_singleton.mp hp with rfl
      subst hm
      exact Nat.le_refl _
    | cons z zs =>
      rw [List.getLast?_cons_cons] at hm
      have hzm := ih h.tail m hm
      rcases List.mem_cons.mp hp with rfl | hp
      · have h1 := (List.chain'_cons.mp h).1
        have h2 := hzm z (List.mem_cons_self _ _)
        omega
      · exact hzm p hp

theorem chain'_foldl_insertVersion :
    ∀ (xs : List (Nat × AnyType)) acc,
      List.Chain' (fun a b : Nat × AnyType => a.1 ≤ b.1) acc →
      List.Chain' (fun a b : Nat × AnyType => a.1 ≤ b.1)
        (xs.foldl (fun acc x => insertVersion x acc) acc) := by
  intro xs
  induction xs with
  | nil => intro acc h; simpa using h
  | cons x xs ih =>
    intro acc h
    exact ih _ (chain'_insertVersion x acc h)

theorem otherVersions_last_ge (lookup : List (VersionedUrl × AnyType))
    (u : VersionedUrl) (p : Nat × AnyType) (hp : p ∈ otherVersionsOfUrl lookup u) :
    ∃ m, (otherVersionsOfUrl lookup u).getLast? = some m ∧ p.1 ≤ m.1 := by
  have hchain := chain'_foldl_insertVersion
    ((lookup.filter fun x => decide (x.1.base = u.base) && decide (¬x.1 = u)).map
      fun x => (x.1.version, x.2)) [] (by simp)
  cases hlast : (otherVersionsOfUrl lookup u).getLast? with
  | none =>
    rw [List.getLast?_eq_none_iff] at hlast
    rw [hlast] at hp
    cases hp
  | some m =>
    exact ⟨m, rfl, chain'_last_max _ hchain m hlast p hp⟩

/-- Claim C10: when every other known version of the same base URL is
older (or none exists at all), `determine_name` keeps the plain name and
produces the versioned alias `name ++ "V" ++ version`; when a newer
version exists, the version suffix is folded into the name itself and
the alias is `None`. -/
theorem name_versioned_alias (lookup : List (VersionedUrl × AnyType)) (u : VersionedUrl)
    (fp : String) (hfp : firstPassName lookup u (urlIntoParts u.base) = some fp) :
    ((∀ p ∈ otherVersionsOfUrl lookup u, p.1 < u.version) →
      NameResolver.name ⟨lookup, ModuleFlavor.modRs⟩ u =
        some ⟨fp, some (fp ++ "V" ++ toString u.version)⟩) ∧
    ((∃ p ∈ otherVersionsOfUrl lookup u, u.version < p.1) →
      NameResolver.name ⟨lookup, ModuleFlavor.modRs⟩ u =
        some ⟨fp ++ "V" ++ toString u.version, none⟩) := by
  constructor
  · intro hall
    unfold NameResolver.name determineName
    cases hlast : (otherVersionsOfUrl lookup u).getLast? with
    | none => simp [hfp, hlast]
    | some m =>
      have hm := hall m (List.mem_of_getLast?_eq_some hlast)
      simp [hfp, hlast, Nat.not_lt.mpr (Nat.le_of_lt hm)]
  · intro hex
    obtain ⟨p, hp, hup⟩ := hex
    obtain ⟨m, hlast, hpm⟩ := otherVersions_last_ge lookup u p hp
    unfold NameResolver.name determineName
    simp [hfp, hlast, show u.version < m.1 by omega]

/-- Witness for C10: with two versions of the same base id, the newest
keeps the plain name with a versioned alias, the older one gets the
suffixed name and no alias. -/
theorem name_versioned_alias_witness :
    firstPassName lkTwo uV2 (urlIntoParts uV2.base) = some "Foo" ∧
    NameResolver.name ⟨lkTwo, ModuleFlavor.modRs⟩ uV2 =
      some ⟨"Foo", some ("Foo" ++ "V" ++ toString uV2.version)⟩ ∧
    NameResolver.name ⟨lkTwo, ModuleFlavor.modRs⟩ uV1 =
      some ⟨"Foo" ++ "V" ++ toString uV1.version, none⟩ :=
  ⟨rfl,
    (name_versioned_alias lkTwo uV2 "Foo" rfl).1 (by decide),
    (name_versioned_alias lkTwo uV1 "Foo" rfl).2 (by decide)⟩

end Codegen

